import Mathlib

/-!
Verification of the JIRA PR-link GitHub action (`src/helpers.ts`).

We shallowly embed the string-processing core: the two regular expressions
built by `getJiraPatterns` (instantiated at the default ticket pattern
`([A-Z][A-Z0-9_]*-\d+)`), the operations `extractJiraTicket`,
`generateJiraLink`, `removeExistingJiraLink`, `updatePRBodyWithJiraLink`,
and the write decisions of `handleJiraTicketFound` / `handleNoJiraTicket`.

Strings are `List Char`.  The ECMAScript regex semantics is embedded
directly: leftmost match, greedy `*` and `+` with backtracking, lazy `+?`,
multiline `^`/`$` (which match after/before any of the line terminators
LF, CR, U+2028, U+2029), `.` excluding line terminators, `\s` as the
ECMAScript WhiteSpace/LineTerminator set restricted to its commonly
occurring members, `String.prototype.trim`, and the `$`-escape processing
that `String.prototype.replace` performs on its replacement argument.
-/

abbrev Str := List Char

/-- ECMAScript line terminators: LF, CR, LS, PS. -/
def isLineTerm (c : Char) : Bool :=
  c = '\n' || c = '\r' || c = '\u2028' || c = '\u2029'

/-- ECMAScript `\s` (WhiteSpace ∪ LineTerminator). -/
def isSpaceJS (c : Char) : Bool :=
  c = ' ' || c = '\t' || c = '\u000b' || c = '\u000c' || c = '\u00a0' ||
  c = '\ufeff' || c = '\u1680' || ('\u2000' ≤ c && c ≤ '\u200a') ||
  c = '\u202f' || c = '\u205f' || c = '\u3000' || isLineTerm c

/-- `String.prototype.trim`: strip `\s` characters from both ends. -/
def trimStr (s : Str) : Str :=
  ((s.dropWhile isSpaceJS).reverse.dropWhile isSpaceJS).reverse

/-- `[A-Z]` character class. -/
def isUpperAZ (c : Char) : Bool := 'A' ≤ c && c ≤ 'Z'

/-- `\d` character class. -/
def isDigit09 (c : Char) : Bool := '0' ≤ c && c ≤ '9'

/-- `[A-Z0-9_]` character class. -/
def isTicketMid (c : Char) : Bool := isUpperAZ c || isDigit09 c || c = '_'

/--
Matching of the default ticket pattern `[A-Z][A-Z0-9_]*-\d+` anchored at
the start of `s`: returns the number of characters matched.  The greedy
`[A-Z0-9_]*` and `\d+` need no backtracking here because `-` is not in
`[A-Z0-9_]` and whatever follows a maximal digit run is not a digit, so
the match length is the deterministic maximal-run parse.
-/
def ticketRun : Str → Option Nat
  | [] => none
  | c :: cs =>
    if isUpperAZ c then
      let m := (cs.takeWhile isTicketMid).length
      match cs.drop m with
      | x :: rest =>
        if x = '-' then
          let d := (rest.takeWhile isDigit09).length
          if d = 0 then none else some (1 + m + 1 + d)
        else none
      | [] => none
    else none

/--
Matching of `\s*$` (multiline) anchored at the start of `s`: the greedy
`\s*` consumes as many whitespace characters as possible subject to `$`
holding afterwards (end of input, or the next character is a line
terminator).  Returns the number of characters consumed by `\s*`.
-/
def spacesThenEOL : Str → Option Nat
  | [] => some 0
  | c :: cs =>
    if isSpaceJS c then
      match spacesThenEOL cs with
      | some k => some (k + 1)
      | none => if isLineTerm c then some 0 else none
    else none

/--
Matching of `\)\s*$` after at least one character has already been
consumed by the lazy `.+?`: scan for the first `)` such that `\s*$`
succeeds after it; earlier `)` characters are absorbed by `.+?`
(which cannot cross a line terminator).  Returns total characters
consumed (the `)` plus the `\s*` run).
-/
def urlScan : Str → Option Nat
  | [] => none
  | c :: cs =>
    if c = ')' then
      match spacesThenEOL cs with
      | some k => some (1 + k)
      | none =>
        match urlScan cs with
        | some n => some (1 + n)
        | none => none
    else if isLineTerm c then none
    else
      match urlScan cs with
      | some n => some (1 + n)
      | none => none

/-- Matching of `.+?\)\s*$`: `.+?` must consume at least one character. -/
def urlPart : Str → Option Nat
  | [] => none
  | c :: cs =>
    if isLineTerm c then none
    else
      match urlScan cs with
      | some n => some (1 + n)
      | none => none

/-- The fixed text of the link line up to and including the `[`. -/
def linkHeader : Str := "🔗 Linked to JIRA ticket: [".toList

/--
Matching of the full link-line regex
`^🔗 Linked to JIRA ticket: \[([A-Z][A-Z0-9_]*-\d+)\]\(.+?\)\s*$`
anchored at a line start.  Returns `(total match length, length of the
capturing group 1)`.
-/
def matchLinkAt (s : Str) : Option (Nat × Nat) :=
  match List.isPrefixOf linkHeader s with
  | false => none
  | true =>
    let s1 := s.drop linkHeader.length
    match ticketRun s1 with
    | none => none
    | some t =>
      match s1.drop t with
      | c1 :: c2 :: s2 =>
        if c1 = ']' then
          if c2 = '(' then
            match urlPart s2 with
            | some u => some (linkHeader.length + t + 2 + u, t)
            | none => none
          else none
        else none
      | _ => none

/-- Skip one line: consumed characters (incl. the terminator) and the rest. -/
def skipLine : Str → Option (Nat × Str)
  | [] => none
  | c :: cs =>
    if isLineTerm c then some (1, cs)
    else
      match skipLine cs with
      | some (n, r) => some (n + 1, r)
      | none => none

theorem skipLine_length : ∀ s n r, skipLine s = some (n, r) → r.length < s.length := by
  intro s
  induction s with
  | nil => intro n r h; simp [skipLine] at h
  | cons c cs ih =>
    intro n r h
    simp only [skipLine] at h
    split at h
    · cases h; simp
    · cases hs : skipLine cs with
      | none => rw [hs] at h; cases h
      | some p =>
        rw [hs] at h
        cases h
        have := ih p.1 p.2 (by rw [hs])
        simp only [List.length_cons]
        omega

/--
Leftmost multiline match of the link-line regex: try the current line
start; on failure skip past the next line terminator (`^` with the `m`
flag matches at index 0 and right after every line terminator).
Returns `(match start index, match length, group-1 length)`.
The fuel argument only drives structural recursion; any fuel above the
string length gives the same result.
-/
def findLinkAux : Nat → Str → Option (Nat × Nat × Nat)
  | 0, _ => none
  | fuel + 1, s =>
    match matchLinkAt s with
    | some (len, tl) => some (0, len, tl)
    | none =>
      match skipLine s with
      | none => none
      | some (n, r) =>
        match findLinkAux fuel r with
        | some (i, len, tl) => some (n + i, len, tl)
        | none => none

def findLink (s : Str) : Option (Nat × Nat × Nat) :=
  findLinkAux (s.length + 1) s

theorem findLinkAux_fuel : ∀ fuel1 fuel2 s, s.length < fuel1 → s.length < fuel2 →
    findLinkAux fuel1 s = findLinkAux fuel2 s := by
  intro fuel1
  induction fuel1 with
  | zero => intro fuel2 s h1 h2; omega
  | succ f1 ih =>
    intro fuel2 s h1 h2
    cases fuel2 with
    | zero => omega
    | succ f2 =>
      simp only [findLinkAux]
      cases matchLinkAt s with
      | some p => rfl
      | none =>
        simp only
        cases hs : skipLine s with
        | none => rfl
        | some p =>
          obtain ⟨n, r⟩ := p
          have hr := skipLine_length s n r hs
          dsimp only
          rw [ih f2 r (by omega) (by omega)]

/-- The defining equation of `findLink`, free of the fuel argument. -/
theorem findLink_eq (s : Str) : findLink s =
    match matchLinkAt s with
    | some (len, tl) => some (0, len, tl)
    | none =>
      match skipLine s with
      | none => none
      | some (n, r) =>
        match findLink r with
        | some (i, len, tl) => some (n + i, len, tl)
        | none => none := by
  rw [show findLink s = findLinkAux (s.length + 1) s from rfl]
  simp only [findLinkAux]
  cases matchLinkAt s with
  | some p => rfl
  | none =>
    dsimp only
    cases hs : skipLine s with
    | none => rfl
    | some p =>
      obtain ⟨n, r⟩ := p
      have hr := skipLine_length s n r hs
      dsimp only
      rw [findLinkAux_fuel s.length (r.length + 1) r (by omega) (by omega)]
      rfl

/--
`GetSubstitution` of `String.prototype.replace` for a regex with exactly
one capturing group: expand `$$`, `$&`, the backquote and quote forms,
and `$1`/`$01` in the replacement template; other `$` sequences are
literal.
-/
def expandRepl (matched pre post g1 : Str) : Str → Str
  | [] => []
  | c :: rest =>
    if c = '$' then
      match rest with
      | [] => [c]
      | d :: r =>
        if d = '$' then '$' :: expandRepl matched pre post g1 r
        else if d = '&' then matched ++ expandRepl matched pre post g1 r
        else if d = Char.ofNat 96 then pre ++ expandRepl matched pre post g1 r
        else if d = Char.ofNat 39 then post ++ expandRepl matched pre post g1 r
        else if d = '1' then
          match r with
          | [] => g1 ++ expandRepl matched pre post g1 []
          | e :: r2 =>
            if isDigit09 e then c :: expandRepl matched pre post g1 (d :: e :: r2)
            else g1 ++ expandRepl matched pre post g1 (e :: r2)
        else if d = '0' then
          match r with
          | [] => c :: expandRepl matched pre post g1 (d :: [])
          | e :: r2 =>
            if e = '1' then g1 ++ expandRepl matched pre post g1 r2
            else c :: expandRepl matched pre post g1 (d :: e :: r2)
        else c :: expandRepl matched pre post g1 (d :: r)
    else c :: expandRepl matched pre post g1 rest

/--
`prBody.replace(JIRA_LINK_LINE_REGEX, repl)`: replace the leftmost match
(if any) by the expanded replacement; otherwise return the body unchanged.
-/
def replaceLink (prBody repl : Str) : Str :=
  match findLink prBody with
  | none => prBody
  | some (i, len, tl) =>
    let pre := prBody.take i
    let matched := (prBody.drop i).take len
    let post := prBody.drop (i + len)
    let g1 := ((prBody.drop i).drop linkHeader.length).take tl
    pre ++ expandRepl matched pre post g1 repl ++ post

/-- `extractJiraTicket` (helpers.ts): first match of the ticket regex,
returning the capturing group (= the whole match). -/
def extractJiraTicket : Str → Option Str
  | [] => none
  | c :: cs =>
    match ticketRun (c :: cs) with
    | some n => some ((c :: cs).take n)
    | none => extractJiraTicket cs

/-- `generateJiraLink` (helpers.ts). -/
def generateJiraLink (baseUrl ticket : Str) : Str :=
  linkHeader ++ ticket ++ ']' :: '(' :: (baseUrl ++ "/browse/".toList ++ ticket ++ [')'])

/-- `removeExistingJiraLink` (helpers.ts): `body.replace(regex, '').trim()`. -/
def removeExistingJiraLink (prBody : Str) : Str :=
  trimStr (replaceLink prBody [])

/-- `updatePRBodyWithJiraLink` (helpers.ts): replace an existing link line
in place, else insert according to the mode, else throw. -/
def updatePRBodyWithJiraLink (prBody jiraLink : Str) (jiraLinkMode : String) :
    Except String Str :=
  match findLink prBody with
  | some _ => .ok (replaceLink prBody jiraLink)
  | none =>
    if jiraLinkMode = "body-start" then
      .ok (trimStr (jiraLink ++ '\n' :: '\n' :: prBody))
    else if jiraLinkMode = "body-end" then
      .ok (trimStr (prBody ++ '\n' :: '\n' :: jiraLink))
    else
      .error ("Unsupported JIRA_LINK_MODE: " ++ jiraLinkMode)

/-- The write decision of `handleNoJiraTicket` (helpers.ts): `some newBody`
when a `pulls.update` call is issued, `none` otherwise. -/
def handleNoJiraTicketWrite (prBody : Str) : Option Str :=
  let cleanedBody := removeExistingJiraLink prBody
  if cleanedBody ≠ prBody then some cleanedBody else none

/-- The write decision of `handleJiraTicketFound` (helpers.ts). -/
def handleJiraTicketFoundWrite (prBody jiraLink : Str) (jiraLinkMode : String) :
    Except String (Option Str) :=
  match updatePRBodyWithJiraLink prBody jiraLink jiraLinkMode with
  | .ok newBody => .ok (if newBody ≠ prBody then some newBody else none)
  | .error e => .error e

/-- Default ticket pattern source text (helpers.ts `DEFAULT_TICKET_PATTERN`). -/
def defaultTicketPattern : Str := "([A-Z][A-Z0-9_]*-\\d+)".toList

/-- The ticket-pattern selection of `getJiraPatterns` (helpers.ts): the
  empty list models an absent `issue-pattern` input (falsy in JS). -/
def ticketPatternOf (issuePatternInput : Str) : Str :=
  if issuePatternInput = [] then defaultTicketPattern
  else if '(' ∈ issuePatternInput then issuePatternInput
  else '(' :: (issuePatternInput ++ [')'])

/-- The sequence of `pulls.update` calls issued by one run of the action
(index.ts `run` together with the two handlers).  A thrown error is caught
by `run` and leads to `setFailed` with no write. -/
def runWrites (prTitle prBody baseUrl : Str) (jiraLinkMode : String) : List Str :=
  match extractJiraTicket prTitle with
  | some ticket =>
    match handleJiraTicketFoundWrite prBody (generateJiraLink baseUrl ticket) jiraLinkMode with
    | .ok (some newBody) => [newBody]
    | .ok none => []
    | .error _ => []
  | none =>
    match handleNoJiraTicketWrite prBody with
    | some newBody => [newBody]
    | none => []

/-- A ticket string that the default ticket pattern matches in full. -/
def isTicketStr (s : Str) : Bool :=
  match ticketRun s with
  | some n => n = s.length
  | none => false

/-- No line-terminator characters. -/
def noTerm (s : Str) : Bool := s.all (fun c => !isLineTerm c)

/-- No `$` characters (so `replace` treats the string literally). -/
def noDollar (s : Str) : Bool := s.all (fun c => c != '$')

/-! ### Basic list and trim lemmas -/

theorem length_dropWhile_le' (p : Char → Bool) (l : Str) :
    (l.dropWhile p).length ≤ l.length := by
  induction l with
  | nil => simp [List.dropWhile]
  | cons a t ih =>
    by_cases h : p a
    · simp [List.dropWhile_cons, h]; omega
    · simp [List.dropWhile_cons, h]

theorem trimStr_length_le_dropWhile (s : Str) :
    (trimStr s).length ≤ (s.dropWhile isSpaceJS).length := by
  unfold trimStr
  rw [List.length_reverse]
  calc ((s.dropWhile isSpaceJS).reverse.dropWhile isSpaceJS).length
      ≤ (s.dropWhile isSpaceJS).reverse.length := length_dropWhile_le' _ _
    _ = (s.dropWhile isSpaceJS).length := List.length_reverse _

theorem trimStable_head {s : Str} (h : trimStr s = s) (hs : s ≠ []) :
    ∃ c t, s = c :: t ∧ isSpaceJS c = false := by
  cases s with
  | nil => exact absurd rfl hs
  | cons c t =>
    refine ⟨c, t, rfl, ?_⟩
    by_contra hws
    have hws' : isSpaceJS c = true := by
      cases hcc : isSpaceJS c
      · exact absurd hcc hws
      · rfl
    have h1 : ((c :: t).dropWhile isSpaceJS).length ≤ t.length := by
      rw [List.dropWhile_cons_of_pos hws']
      exact length_dropWhile_le' _ _
    have h2 := trimStr_length_le_dropWhile (c :: t)
    rw [h] at h2
    simp only [List.length_cons] at h2
    omega

theorem dropWhile_getLast? (p : Char → Bool) (l : Str)
    (h : l.dropWhile p ≠ []) : (l.dropWhile p).getLast? = l.getLast? := by
  induction l with
  | nil => simp [List.dropWhile] at h
  | cons a t ih =>
    by_cases hp : p a
    · have he : (a :: t).dropWhile p = t.dropWhile p := List.dropWhile_cons_of_pos hp
      have ht : t.dropWhile p ≠ [] := by rw [← he]; exact h
      have htne : t ≠ [] := by
        intro hl; rw [hl] at ht; simp [List.dropWhile] at ht
      rw [he, ih ht]
      cases t with
      | nil => exact absurd rfl htne
      | cons b t2 => rw [List.getLast?_cons_cons]
    · rw [List.dropWhile_cons_of_neg hp]

theorem trimStable_last {s : Str} (h : trimStr s = s) (hs : s ≠ []) :
    ∃ t c, s = t ++ [c] ∧ isSpaceJS c = false := by
  have hrev : s.reverse ≠ [] := by simpa using hs
  obtain ⟨c, t, hct⟩ : ∃ c t, s.reverse = c :: t := by
    cases hr : s.reverse with
    | nil => exact absurd hr hrev
    | cons c t => exact ⟨c, t, rfl⟩
  have hse : s = t.reverse ++ [c] := by
    have := congrArg List.reverse hct
    rwa [List.reverse_reverse, List.reverse_cons] at this
  refine ⟨t.reverse, c, hse, ?_⟩
  -- if the last char were whitespace, the trailing dropWhile would shrink the string
  by_contra hws
  have hws' : isSpaceJS c = true := by
    cases hcc : isSpaceJS c
    · exact absurd hcc hws
    · rfl
  set d1 := s.dropWhile isSpaceJS with hd1
  have hd1ne : d1 ≠ [] := by
    intro h0
    have hle : (trimStr s).length ≤ d1.length := trimStr_length_le_dropWhile s
    rw [h, h0] at hle
    simp at hle
    exact hs hle
  -- the last element of d1 equals the last element of s, which is c
  have hlast? : d1.getLast? = some c := by
    rw [hd1, dropWhile_getLast? _ _ (hd1 ▸ hd1ne), hse, List.getLast?_concat]
  obtain ⟨t1, hd1e⟩ : ∃ t1, d1 = t1 ++ [c] := by
    refine ⟨d1.dropLast, ?_⟩
    have hdl := List.dropLast_append_getLast hd1ne
    rw [List.getLast?_eq_getLast d1 hd1ne] at hlast?
    have : d1.getLast hd1ne = c := by injection hlast?
    rw [← this]
    exact hdl.symm
  have hshrink : (trimStr s).length < s.length := by
    unfold trimStr
    rw [List.length_reverse, ← hd1]
    rw [hd1e, List.reverse_append]
    simp only [List.reverse_cons, List.reverse_nil, List.nil_append, List.cons_append,
      List.nil_append]
    rw [List.dropWhile_cons_of_pos hws']
    have h1 : (t1.reverse.dropWhile isSpaceJS).length ≤ t1.length := by
      calc (t1.reverse.dropWhile isSpaceJS).length ≤ t1.reverse.length :=
        length_dropWhile_le' _ _
      _ = t1.length := List.length_reverse _
    have h2 : d1.length ≤ s.length := by
      rw [hd1]; exact length_dropWhile_le' _ _
    rw [hd1e] at h2
    simp only [List.length_append, List.length_cons, List.length_nil] at h2
    omega
  rw [h] at hshrink
  omega

theorem dropWhile_cons_ne (a : Char) (t : Str) (ha : isSpaceJS a = false) :
    (a :: t).dropWhile isSpaceJS = a :: t :=
  List.dropWhile_cons_of_neg (by rw [ha]; exact Bool.false_ne_true)

/-- `trim` is the identity on a string with non-whitespace first and last characters. -/
theorem trimStr_cons_concat (a : Char) (mid : Str) (b : Char)
    (ha : isSpaceJS a = false) (hb : isSpaceJS b = false) :
    trimStr (a :: (mid ++ [b])) = a :: (mid ++ [b]) := by
  unfold trimStr
  rw [dropWhile_cons_ne a _ ha]
  have h1 : (a :: (mid ++ [b])).reverse = b :: (mid.reverse ++ [a]) := by
    simp [List.reverse_cons, List.reverse_append]
  rw [h1, dropWhile_cons_ne b _ hb, ← h1, List.reverse_reverse]

instance {α : Type} [DecidableEq α] : DecidableEq (Except String α) := fun a b =>
  match a, b with
  | .ok x, .ok y => if h : x = y then .isTrue (by rw [h]) else .isFalse (by intro hc; cases hc; exact h rfl)
  | .error x, .error y => if h : x = y then .isTrue (by rw [h]) else .isFalse (by intro hc; cases hc; exact h rfl)
  | .ok _, .error _ => .isFalse (by intro hc; cases hc)
  | .error _, .ok _ => .isFalse (by intro hc; cases hc)

/-! ### Sample values used by witnesses and counterexamples -/

def urlJ : Str := "https://j".toList

def linkT1 : Str := generateJiraLink urlJ ("T-1".toList)

/-! ### Claim C2 -/

/--
Claim C2 (amended): for every body in which the link-line pattern finds no
match **and which has no leading or trailing whitespace**, the no-ticket
reconciliation returns the body exactly unchanged and issues no write.
(As originally stated the claim is false: `removeExistingJiraLink` applies
`.trim()` even when nothing matched, so a match-free body with leading or
trailing whitespace is changed and written back.)
-/
theorem claim_C2 (prBody : Str) (hfind : findLink prBody = none)
    (htrim : trimStr prBody = prBody) :
    removeExistingJiraLink prBody = prBody ∧ handleNoJiraTicketWrite prBody = none := by
  have h1 : removeExistingJiraLink prBody = prBody := by
    unfold removeExistingJiraLink replaceLink
    rw [hfind]
    exact htrim
  refine ⟨h1, ?_⟩
  unfold handleNoJiraTicketWrite
  simp [h1]

/-- Witness for C2 at the body `"x"`. -/
theorem claim_C2_witness :
    removeExistingJiraLink ("x".toList) = "x".toList ∧
    handleNoJiraTicketWrite ("x".toList) = none :=
  claim_C2 ("x".toList) (by decide) (by decide)

/-- Counterexample to C2 as stated: the body `" x"` contains no link-line
match, yet the no-ticket path trims it and issues a write. -/
theorem claim_C2_counterexample :
    findLink (" x".toList) = none ∧
    handleNoJiraTicketWrite (" x".toList) = some ("x".toList) := by decide

/-! ### Claim C3 -/

/--
Claim C3 (amended): if the body contains **no** existing link line, any
mode other than `body-start`/`body-end` makes `updatePRBodyWithJiraLink`
throw the `Unsupported JIRA_LINK_MODE` error.  (As originally stated the
claim is false: when the body does contain a link line, the replacement
branch runs before the mode is examined, so no error is signaled.)
-/
theorem claim_C3 (prBody jiraLink : Str) (mode : String)
    (hfind : findLink prBody = none)
    (h1 : mode ≠ "body-start") (h2 : mode ≠ "body-end") :
    updatePRBodyWithJiraLink prBody jiraLink mode =
      .error ("Unsupported JIRA_LINK_MODE: " ++ mode) := by
  unfold updatePRBodyWithJiraLink
  rw [hfind]
  simp [h1, h2]

/-- Witness for C3 at body `"x"` and mode `"body-middle"`. -/
theorem claim_C3_witness :
    updatePRBodyWithJiraLink ("x".toList) linkT1 "body-middle" =
      .error ("Unsupported JIRA_LINK_MODE: " ++ "body-middle") :=
  claim_C3 ("x".toList) linkT1 "body-middle" (by decide) (by decide) (by decide)

/-- Counterexample to C3 as stated: with an invalid mode but a body that
already contains a link line, no error is signaled — the replacement
branch answers instead. -/
theorem claim_C3_counterexample :
    updatePRBodyWithJiraLink ("🔗 Linked to JIRA ticket: [A-1](u)".toList)
      linkT1 "body-middle" = .ok linkT1 := by decide

/-! ### Claim C5 -/

/--
Claim C5 (amended): for every body with no existing link line, the
insertion result is `trim(link + blank line + body)` for `body-start` and
`trim(body + blank line + link)` for `body-end`; when the body and the
link are nonempty and themselves free of leading/trailing whitespace
(every formatter-produced link is), the trim is the identity, so the
result is exactly link, blank line, body (resp. body, blank line, link).
(As originally stated the claim is false: the final `.trim()` makes the
empty-body result `link` rather than `link + blank line`, and a body with
leading whitespace is not returned in trimmed form in the middle of the
`body-start` result.)
-/
theorem claim_C5 (prBody jiraLink : Str) (a b : Char) (mid : Str)
    (hfind : findLink prBody = none)
    (hbody : trimStr prBody = prBody) (hne : prBody ≠ [])
    (hlink : jiraLink = a :: (mid ++ [b]))
    (ha : isSpaceJS a = false) (hb : isSpaceJS b = false) :
    updatePRBodyWithJiraLink prBody jiraLink "body-start" =
      .ok (jiraLink ++ '\n' :: '\n' :: prBody) ∧
    updatePRBodyWithJiraLink prBody jiraLink "body-end" =
      .ok (prBody ++ '\n' :: '\n' :: jiraLink) := by
  obtain ⟨c, t, hct, hc⟩ := trimStable_head hbody hne
  obtain ⟨t2, d, htd, hd⟩ := trimStable_last hbody hne
  constructor
  · unfold updatePRBodyWithJiraLink
    rw [hfind]
    simp only [reduceIte]
    congr 1
    have hshape : jiraLink ++ '\n' :: '\n' :: prBody =
        a :: ((mid ++ [b] ++ '\n' :: '\n' :: t2) ++ [d]) := by
      rw [hlink, htd]; simp
    rw [hshape, trimStr_cons_concat a _ d ha hd, ← hshape]
  · unfold updatePRBodyWithJiraLink
    rw [hfind]
    simp only [reduceIte, String.reduceEq]
    congr 1
    have hshape : prBody ++ '\n' :: '\n' :: jiraLink =
        c :: ((t ++ '\n' :: '\n' :: (a :: mid)) ++ [b]) := by
      rw [hlink, hct]; simp
    rw [hshape, trimStr_cons_concat c _ b hc hb, ← hshape]

/-- Witness for C5 at body `"Fixes bug"` and the sample link. -/
theorem claim_C5_witness :
    updatePRBodyWithJiraLink ("Fixes bug".toList) linkT1 "body-start" =
      .ok (linkT1 ++ '\n' :: '\n' :: "Fixes bug".toList) ∧
    updatePRBodyWithJiraLink ("Fixes bug".toList) linkT1 "body-end" =
      .ok ("Fixes bug".toList ++ '\n' :: '\n' :: linkT1) :=
  claim_C5 ("Fixes bug".toList) linkT1 '🔗' ')'
    (" Linked to JIRA ticket: [T-1](https://j/browse/T-1".toList)
    (by decide) (by decide) (by decide) (by decide) (by decide) (by decide)

/-- Counterexample to C5 as stated: inserting into the empty body yields
just the link, not link followed by a blank line. -/
theorem claim_C5_counterexample :
    updatePRBodyWithJiraLink [] linkT1 "body-start" = .ok linkT1 ∧
    linkT1 ≠ linkT1 ++ '\n' :: '\n' :: ([] : Str) := by decide

/-! ### Claim C7 -/

/--
Claim C7 (confirmed): in every run, at most one `pulls.update` write is
issued, and any written body differs from the original body; when the
reconciled body equals the original, no write call is made.
-/
theorem claim_C7 (prTitle prBody baseUrl : Str) (mode : String) :
    (runWrites prTitle prBody baseUrl mode).length ≤ 1 ∧
    (runWrites prTitle prBody baseUrl mode).all (fun nb => nb != prBody) = true := by
  unfold runWrites handleJiraTicketFoundWrite handleNoJiraTicketWrite
  cases extractJiraTicket prTitle with
  | some ticket =>
    dsimp only
    cases updatePRBodyWithJiraLink prBody (generateJiraLink baseUrl ticket) mode with
    | ok newBody =>
      by_cases h : newBody = prBody
      · simp [h]
      · simp [h]
    | error e => simp
  | none =>
    dsimp only
    by_cases h : removeExistingJiraLink prBody = prBody
    · simp [h]
    · simp [h]

/-- Witness for C7 at a concrete run. -/
theorem claim_C7_witness :
    (runWrites ("feat(PROJ-9): x".toList) ("Hello".toList) urlJ "body-start").length ≤ 1 ∧
    (runWrites ("feat(PROJ-9): x".toList) ("Hello".toList) urlJ
        "body-start").all (fun nb => nb != "Hello".toList) = true :=
  claim_C7 ("feat(PROJ-9): x".toList) ("Hello".toList) urlJ "body-start"

/-! ### Claim C9 -/

/--
Claim C9 (confirmed): the pattern builder uses the default ticket pattern
when no fragment is supplied; a fragment containing `(` is used verbatim;
a fragment without any parenthesis is wrapped in exactly one pair of
parentheses, leaving exactly one opening parenthesis (one capturing
group).
-/
theorem claim_C9 :
    ticketPatternOf [] = defaultTicketPattern ∧
    (∀ frag : Str, frag ≠ [] → '(' ∈ frag → ticketPatternOf frag = frag) ∧
    (∀ frag : Str, frag ≠ [] → '(' ∉ frag →
      ticketPatternOf frag = '(' :: (frag ++ [')']) ∧
      (ticketPatternOf frag).count '(' = 1) := by
  refine ⟨rfl, ?_, ?_⟩
  · intro frag hne hmem
    simp [ticketPatternOf, hne, hmem]
  · intro frag hne hmem
    have he : ticketPatternOf frag = '(' :: (frag ++ [')']) := by
      simp [ticketPatternOf, hne, hmem]
    refine ⟨he, ?_⟩
    rw [he]
    simp only [List.count_cons, List.count_append]
    have h1 : frag.count '(' = 0 := List.count_eq_zero.mpr hmem
    have h2 : List.count '(' [')'] = 0 := by decide
    simp [h1, h2]

/-- Witness for C9 at the fragment `MYPROJ-\d+` from the spec. -/
theorem claim_C9_witness :
    ticketPatternOf ("MYPROJ-\\d+".toList) = '(' :: ("MYPROJ-\\d+".toList ++ [')']) ∧
    (ticketPatternOf ("MYPROJ-\\d+".toList)).count '(' = 1 :=
  claim_C9.2.2 ("MYPROJ-\\d+".toList) (by decide) (by decide)

/-! ### Claim C8 -/

theorem length_takeWhile_le' (p : Char → Bool) (l : Str) :
    (l.takeWhile p).length ≤ l.length := by
  conv_rhs => rw [← List.takeWhile_append_dropWhile p l]
  rw [List.length_append]
  omega

theorem ticketRun_le_length {s : Str} {n : Nat} (h : ticketRun s = some n) :
    n ≤ s.length := by
  cases s with
  | nil => simp [ticketRun] at h
  | cons c cs =>
    unfold ticketRun at h
    by_cases hu : isUpperAZ c
    · simp only [hu, if_true] at h
      cases hdrop : cs.drop (cs.takeWhile isTicketMid).length with
      | nil => rw [hdrop] at h; simp at h
      | cons x rest =>
        rw [hdrop] at h
        dsimp only at h
        by_cases hx : x = '-'
        · rw [if_pos hx] at h
          by_cases hd : (rest.takeWhile isDigit09).length = 0
          · rw [if_pos hd] at h; cases h
          · rw [if_neg hd] at h
            injection h with hn
            have hm : (cs.takeWhile isTicketMid).length ≤ cs.length :=
              length_takeWhile_le' _ _
            have hdg : (rest.takeWhile isDigit09).length ≤ rest.length :=
              length_takeWhile_le' _ _
            have hlen := congrArg List.length hdrop
            rw [List.length_drop] at hlen
            simp only [List.length_cons] at hlen ⊢
            omega
        · rw [if_neg hx] at h; cases h
    · simp [hu] at h

/--
Claim C8 (confirmed): `extractJiraTicket` returns the capturing group of
the first occurrence of the ticket pattern — there exist a prefix and a
suffix such that the ticket matches exactly at the first position where
the pattern matches at all, and no earlier position matches; when the
pattern matches nowhere, it returns `none`.
-/
theorem claim_C8 (s : Str) :
    ((extractJiraTicket s = none) ↔ (∀ p, ticketRun (s.drop p) = none)) ∧
    (∀ t, extractJiraTicket s = some t →
      ∃ pre post, s = pre ++ t ++ post ∧
        ticketRun (s.drop pre.length) = some t.length ∧
        ∀ q, q < pre.length → ticketRun (s.drop q) = none) := by
  induction s with
  | nil =>
    refine ⟨⟨fun _ p => by simp [ticketRun], fun _ => rfl⟩, fun t h => ?_⟩
    simp [extractJiraTicket] at h
  | cons c cs ih =>
    cases htr : ticketRun (c :: cs) with
    | some n =>
      have hext : extractJiraTicket (c :: cs) = some ((c :: cs).take n) := by
        unfold extractJiraTicket
        rw [htr]
      constructor
      · constructor
        · intro h; rw [hext] at h; cases h
        · intro hall
          have := hall 0
          rw [List.drop_zero, htr] at this
          cases this
      · intro t ht
        rw [hext] at ht
        injection ht with ht
        refine ⟨[], (c :: cs).drop n, ?_, ?_, ?_⟩
        · rw [← ht, List.nil_append, List.take_append_drop]
        · simp only [List.length_nil, List.drop_zero]
          rw [htr]
          have hn : n ≤ (c :: cs).length := ticketRun_le_length htr
          congr 1
          rw [← ht, List.length_take]
          omega
        · intro q hq
          simp at hq
    | none =>
      have hext : extractJiraTicket (c :: cs) = extractJiraTicket cs := by
        show (match ticketRun (c :: cs) with
              | some n => some ((c :: cs).take n)
              | none => extractJiraTicket cs) = extractJiraTicket cs
        rw [htr]
      constructor
      · rw [hext]
        constructor
        · intro h p
          cases p with
          | zero => rw [List.drop_zero]; exact htr
          | succ p2 =>
            rw [List.drop_succ_cons]
            exact (ih.1.mp h) p2
        · intro hall
          apply ih.1.mpr
          intro p
          have := hall (p + 1)
          rwa [List.drop_succ_cons] at this
      · intro t ht
        rw [hext] at ht
        obtain ⟨pre2, post2, h1, h2, h3⟩ := ih.2 t ht
        refine ⟨c :: pre2, post2, ?_, ?_, ?_⟩
        · rw [h1]; simp
        · rw [List.length_cons, List.drop_succ_cons]
          exact h2
        · intro q hq
          cases q with
          | zero => rw [List.drop_zero]; exact htr
          | succ q2 =>
            rw [List.drop_succ_cons]
            exact h3 q2 (by simpa using hq)

/-- Witness for C8 at the spec's examples `"feat(PROJ-123): add X"` and
`"fix typo"`. -/
theorem claim_C8_witness :
    (∃ pre post, "feat(PROJ-123): add X".toList =
        pre ++ "PROJ-123".toList ++ post ∧
      ticketRun (("feat(PROJ-123): add X".toList).drop pre.length) =
        some ("PROJ-123".toList).length ∧
      ∀ q, q < pre.length → ticketRun (("feat(PROJ-123): add X".toList).drop q) = none) ∧
    (∀ p, ticketRun (("fix typo".toList).drop p) = none) :=
  ⟨(claim_C8 _).2 ("PROJ-123".toList) (by decide),
   (claim_C8 ("fix typo".toList)).1.mp (by decide)⟩

/-! ### Character class facts -/

theorem char_le_iff_toNat {a b : Char} : a ≤ b ↔ a.toNat ≤ b.toNat := Iff.rfl

theorem char_eq_iff_toNat {a b : Char} : a = b ↔ a.toNat = b.toNat := by
  constructor
  · intro h; rw [h]
  · intro h
    exact Char.ext (UInt32.ext h)

theorem notTerm_of_ascii {c : Char} (h1 : 33 ≤ c.toNat) (h2 : c.toNat ≤ 127) :
    isLineTerm c = false := by
  unfold isLineTerm
  simp only [Bool.or_eq_false_iff, decide_eq_false_iff_not]
  refine ⟨⟨⟨?_, ?_⟩, ?_⟩, ?_⟩ <;>
    (intro h; subst h; revert h1 h2; decide)

theorem notSpace_of_ascii {c : Char} (h1 : 33 ≤ c.toNat) (h2 : c.toNat ≤ 127) :
    isSpaceJS c = false := by
  unfold isSpaceJS
  rw [notTerm_of_ascii h1 h2]
  simp only [Bool.or_eq_false_iff, decide_eq_false_iff_not]
  refine ⟨⟨⟨⟨⟨⟨⟨⟨⟨⟨⟨?_, ?_⟩, ?_⟩, ?_⟩, ?_⟩, ?_⟩, ?_⟩, ?_⟩, ?_⟩, ?_⟩, ?_⟩, trivial⟩ <;>
    first
    | (intro h; subst h; revert h1 h2; decide)
    | (rw [Bool.and_eq_false_iff]
       left
       rw [decide_eq_false_iff_not]
       intro hle
       rw [char_le_iff_toNat] at hle
       have h8 : (Char.toNat '\u2000') = 8192 := rfl
       rw [h8] at hle
       omega)

/-! ### takeWhile / dropWhile helpers -/

theorem tw_all_stop {p : Char → Bool} {xs : Str} (c : Char) (ys : Str)
    (hall : xs.all p = true) (hc : p c = false) :
    (xs ++ c :: ys).takeWhile p = xs := by
  induction xs with
  | nil => simp [List.takeWhile_cons, hc]
  | cons x xr ih =>
    rw [List.all_cons, Bool.and_eq_true] at hall
    rw [List.cons_append, List.takeWhile_cons_of_pos hall.1, ih hall.2]

theorem takeWhile_all_eq {p : Char → Bool} {xs : Str} (hall : xs.all p = true) :
    xs.takeWhile p = xs := by
  induction xs with
  | nil => rfl
  | cons x xr ih =>
    rw [List.all_cons, Bool.and_eq_true] at hall
    rw [List.takeWhile_cons_of_pos hall.1, ih hall.2]

theorem all_takeWhile' (p : Char → Bool) (xs : Str) :
    (xs.takeWhile p).all p = true := by
  induction xs with
  | nil => rfl
  | cons x xr ih =>
    by_cases h : p x
    · rw [List.takeWhile_cons_of_pos h, List.all_cons, Bool.and_eq_true]
      exact ⟨h, ih⟩
    · rw [List.takeWhile_cons_of_neg h]; rfl

theorem dropWhile_eq_drop_tw (p : Char → Bool) (xs : Str) :
    xs.drop (xs.takeWhile p).length = xs.dropWhile p := by
  induction xs with
  | nil => rfl
  | cons x xr ih =>
    by_cases h : p x
    · rw [List.takeWhile_cons_of_pos h, List.dropWhile_cons_of_pos h,
        List.length_cons, List.drop_succ_cons, ih]
    · rw [List.takeWhile_cons_of_neg h, List.dropWhile_cons_of_neg h]
      rfl

theorem takeWhile_eq_self_of_length {p : Char → Bool} {xs : Str}
    (h : (xs.takeWhile p).length = xs.length) : xs.takeWhile p = xs := by
  induction xs with
  | nil => rfl
  | cons x xr ih =>
    by_cases hp : p x
    · rw [List.takeWhile_cons_of_pos hp] at h ⊢
      rw [List.length_cons, List.length_cons] at h
      rw [ih (by omega)]
    · rw [List.takeWhile_cons_of_neg hp] at h
      simp at h

/-! ### Ticket string structure -/

theorem upper_toNat {c : Char} (h : isUpperAZ c = true) :
    65 ≤ c.toNat ∧ c.toNat ≤ 90 := by
  unfold isUpperAZ at h
  rw [Bool.and_eq_true, decide_eq_true_eq, decide_eq_true_eq] at h
  obtain ⟨h1, h2⟩ := h
  rw [char_le_iff_toNat] at h1 h2
  exact ⟨h1, h2⟩

theorem digit_toNat {c : Char} (h : isDigit09 c = true) :
    48 ≤ c.toNat ∧ c.toNat ≤ 57 := by
  unfold isDigit09 at h
  rw [Bool.and_eq_true, decide_eq_true_eq, decide_eq_true_eq] at h
  obtain ⟨h1, h2⟩ := h
  rw [char_le_iff_toNat] at h1 h2
  exact ⟨h1, h2⟩

theorem ticketMid_toNat {c : Char} (h : isTicketMid c = true) :
    33 ≤ c.toNat ∧ c.toNat ≤ 127 := by
  unfold isTicketMid at h
  rw [Bool.or_eq_true, Bool.or_eq_true] at h
  rcases h with (h | h) | h
  · have := upper_toNat h; omega
  · have := digit_toNat h; omega
  · have hc : c = '_' := by simpa using h
    subst hc; decide

/-- Structure of a string fully matched by the default ticket pattern. -/
theorem isTicketStr_decomp {t : Str} (h : isTicketStr t = true) :
    ∃ a M D, t = a :: (M ++ '-' :: D) ∧ isUpperAZ a = true ∧
      M.all isTicketMid = true ∧ D.all isDigit09 = true ∧ D ≠ [] := by
  unfold isTicketStr at h
  cases ht : ticketRun t with
  | none => rw [ht] at h; cases h
  | some n =>
    rw [ht] at h
    rw [decide_eq_true_eq] at h
    subst h
    cases t with
    | nil => simp [ticketRun] at ht
    | cons a cs =>
      unfold ticketRun at ht
      by_cases hu : isUpperAZ a
      · simp only [hu, if_true] at ht
        cases hdrop : cs.drop (cs.takeWhile isTicketMid).length with
        | nil => rw [hdrop] at ht; simp at ht
        | cons x rest =>
          rw [hdrop] at ht
          dsimp only at ht
          by_cases hx : x = '-'
          · rw [if_pos hx] at ht
            subst hx
            by_cases hd : (rest.takeWhile isDigit09).length = 0
            · rw [if_pos hd] at ht; cases ht
            · rw [if_neg hd] at ht
              injection ht with hn
              -- lengths force the digit run to be all of `rest`
              have hlen := congrArg List.length hdrop
              rw [List.length_drop] at hlen
              simp only [List.length_cons] at hlen hn
              have hm : (cs.takeWhile isTicketMid).length ≤ cs.length :=
                length_takeWhile_le' _ _
              have hdl : (rest.takeWhile isDigit09).length ≤ rest.length :=
                length_takeWhile_le' _ _
              have hrest : (rest.takeWhile isDigit09).length = rest.length := by omega
              have hD : rest.takeWhile isDigit09 = rest :=
                takeWhile_eq_self_of_length hrest
              refine ⟨a, cs.takeWhile isTicketMid, rest, ?_, hu, all_takeWhile' _ _, ?_, ?_⟩
              · have hsplit : cs.takeWhile isTicketMid ++ '-' :: rest = cs := by
                  conv_rhs => rw [← List.takeWhile_append_dropWhile isTicketMid cs]
                  congr 1
                  rw [← dropWhile_eq_drop_tw isTicketMid cs]
                  exact hdrop.symm
                rw [hsplit]
              · rw [← hD]; exact all_takeWhile' _ _
              · intro hre; subst hre; simp [List.takeWhile_nil] at hd
          · rw [if_neg hx] at ht; cases ht
      · simp [hu] at ht

/-- Evaluation of `ticketRun` on a string in ticket shape followed by a
tail that does not start with a digit. -/
theorem ticketRun_eval (a : Char) (M D tail : Str) (hu : isUpperAZ a = true)
    (hM : M.all isTicketMid = true) (hDne : D ≠ []) (hDd : D.all isDigit09 = true)
    (htail : tail = [] ∨ ∃ c r2, tail = c :: r2 ∧ isDigit09 c = false) :
    ticketRun (a :: (M ++ '-' :: (D ++ tail))) = some (1 + M.length + 1 + D.length) := by
  unfold ticketRun
  dsimp only
  rw [if_pos hu]
  have h1 : (M ++ '-' :: (D ++ tail)).takeWhile isTicketMid = M :=
    tw_all_stop _ _ hM (by decide)
  rw [h1, List.drop_left]
  dsimp only
  rw [if_pos rfl]
  have h2 : (D ++ tail).takeWhile isDigit09 = D := by
    rcases htail with h0 | ⟨c, r2, hcr, hcd⟩
    · subst h0; rw [List.append_nil]; exact takeWhile_all_eq hDd
    · subst hcr; exact tw_all_stop _ _ hDd hcd
  rw [h2]
  have h3 : ¬ D.length = 0 := by
    intro h0
    exact hDne (List.length_eq_zero.mp h0)
  rw [if_neg h3]

/-- Re-parsing a full ticket with a non-digit continuation appended. -/
theorem ticketRun_append {t : Str} (h : isTicketStr t = true) {rest : Str}
    (hr : rest = [] ∨ ∃ c r2, rest = c :: r2 ∧ isDigit09 c = false) :
    ticketRun (t ++ rest) = some t.length := by
  obtain ⟨a, M, D, hshape, hu, hM, hD, hne⟩ := isTicketStr_decomp h
  subst hshape
  have harg : (a :: (M ++ '-' :: D)) ++ rest = a :: (M ++ '-' :: (D ++ rest)) := by simp
  rw [harg, ticketRun_eval a M D rest hu hM hne hD hr]
  congr 1
  simp [List.length_append]
  omega

/-! ### spacesThenEOL lemmas -/

theorem term_is_space {c : Char} (h : isLineTerm c = true) : isSpaceJS c = true := by
  unfold isSpaceJS
  rw [h]
  simp

theorem notSpace_notTerm {c : Char} (h : isSpaceJS c = false) : isLineTerm c = false := by
  cases ht : isLineTerm c
  · rfl
  · rw [term_is_space ht] at h; cases h

/-- `\s*$` fails when the text up to the next line boundary contains a
terminator-free segment ending in `)`. -/
theorem spacesThenEOL_none {xs : Str} (ys : Str) (hnt : noTerm xs = true) :
    spacesThenEOL (xs ++ ')' :: ys) = none := by
  induction xs with
  | nil =>
    rw [List.nil_append]
    unfold spacesThenEOL
    rw [if_neg (by decide)]
  | cons x xr ih =>
    rw [noTerm, List.all_cons, Bool.and_eq_true] at hnt
    obtain ⟨hx, hxr⟩ := hnt
    rw [List.cons_append]
    unfold spacesThenEOL
    by_cases hws : isSpaceJS x
    · rw [if_pos hws, ih hxr]
      rw [Bool.not_eq_true'] at hx
      rw [hx]
      simp
    · rw [if_neg hws]

/-- If `\s*$` succeeds across a terminator-free prefix, that prefix is all
whitespace. -/
theorem spacesThenEOL_all_ws {xs : Str} {ys : Str} {k : Nat}
    (hnt : noTerm xs = true) (h : spacesThenEOL (xs ++ ys) = some k) :
    xs.all isSpaceJS = true := by
  induction xs generalizing k with
  | nil => rfl
  | cons x xr ih =>
    rw [noTerm, List.all_cons, Bool.and_eq_true] at hnt
    obtain ⟨hx, hxr⟩ := hnt
    rw [Bool.not_eq_true'] at hx
    rw [List.cons_append] at h
    unfold spacesThenEOL at h
    by_cases hws : isSpaceJS x
    · rw [if_pos hws] at h
      rw [List.all_cons, Bool.and_eq_true]
      refine ⟨hws, ?_⟩
      cases hrec : spacesThenEOL (xr ++ ys) with
      | some k2 => exact ih hxr hrec
      | none => rw [hrec, hx] at h; simp at h
    · rw [if_neg hws] at h; cases h

/-- An all-whitespace terminator-free string is fully consumed by `\s*$`
at end of input. -/
theorem spacesThenEOL_all (xs : Str) (hws : xs.all isSpaceJS = true)
    (hnt : noTerm xs = true) : spacesThenEOL xs = some xs.length := by
  induction xs with
  | nil => rfl
  | cons x xr ih =>
    rw [List.all_cons, Bool.and_eq_true] at hws
    rw [noTerm, List.all_cons, Bool.and_eq_true] at hnt
    unfold spacesThenEOL
    rw [if_pos hws.1, ih hws.2 hnt.2]
    rw [List.length_cons]

/-- `\s*$` succeeds on an all-whitespace prefix followed by a line
terminator. -/
theorem spacesThenEOL_isSome_of_term {xs : Str} {b : Char} (ys : Str)
    (hws : xs.all isSpaceJS = true) (hb : isLineTerm b = true) :
    (spacesThenEOL (xs ++ b :: ys)).isSome = true := by
  induction xs with
  | nil =>
    rw [List.nil_append]
    unfold spacesThenEOL
    rw [if_pos (term_is_space hb)]
    cases spacesThenEOL ys with
    | some k => simp
    | none => rw [hb]; simp
  | cons x xr ih =>
    rw [List.all_cons, Bool.and_eq_true] at hws
    rw [List.cons_append]
    unfold spacesThenEOL
    rw [if_pos hws.1]
    cases hrec : spacesThenEOL (xr ++ b :: ys) with
    | some k => simp
    | none => rw [hrec] at ih; simp [hws.2] at ih

/-- After the greedy `\s*` run, re-matching `\s*$` consumes nothing. -/
theorem spacesThenEOL_idem {xs : Str} {k : Nat} (h : spacesThenEOL xs = some k) :
    spacesThenEOL (xs.drop k) = some 0 := by
  induction xs generalizing k with
  | nil =>
    unfold spacesThenEOL at h
    injection h with h
    subst h
    rfl
  | cons x xr ih =>
    unfold spacesThenEOL at h
    by_cases hws : isSpaceJS x
    · rw [if_pos hws] at h
      cases hrec : spacesThenEOL xr with
      | some k2 =>
        rw [hrec] at h
        injection h with h
        subst h
        rw [List.drop_succ_cons]
        exact ih hrec
      | none =>
        rw [hrec] at h
        by_cases ht : isLineTerm x
        · rw [if_pos ht] at h
          injection h with h
          subst h
          rw [List.drop_zero]
          unfold spacesThenEOL
          rw [if_pos hws, hrec, if_pos ht]
        · rw [if_neg ht] at h; cases h
    · rw [if_neg hws] at h; cases h

/-! ### urlScan / urlPart lemmas -/

/-- `urlScan` over a terminator-free segment closes at the final `)` when
`\s*$` succeeds on everything after the final `)`. -/
theorem urlScan_final {xs : Str} (hnt : noTerm xs = true) {rest : Str} {k : Nat}
    (hrest : spacesThenEOL rest = some k) :
    urlScan (xs ++ ')' :: rest) = some (xs.length + 1 + k) := by
  induction xs with
  | nil =>
    rw [List.nil_append]
    unfold urlScan
    rw [if_pos rfl, hrest]
    simp
  | cons x xr ih =>
    rw [noTerm, List.all_cons, Bool.and_eq_true] at hnt
    obtain ⟨hx, hxr⟩ := hnt
    rw [Bool.not_eq_true'] at hx
    rw [List.cons_append]
    unfold urlScan
    by_cases hp : x = ')'
    · rw [if_pos hp]
      rw [show xr ++ ')' :: rest = (xr ++ [')']) ++ rest by simp] at *
      have hnone : spacesThenEOL ((xr ++ [')']) ++ rest) = none := by
        rw [show (xr ++ [')']) ++ rest = xr ++ ')' :: rest by simp]
        exact spacesThenEOL_none rest hxr
      rw [hnone]
      rw [show (xr ++ [')']) ++ rest = xr ++ ')' :: rest by simp] at *
      rw [ih hxr]
      simp [List.length_cons]
      omega
    · rw [if_neg hp, hx, if_neg (by simp : ¬ (false = true))]
      rw [ih hxr]
      simp [List.length_cons]
      omega

/-- `urlPart` on a nonempty terminator-free URL segment followed by the
closing `)` and a successful `\s*$` tail. -/
theorem urlPart_final {url : Str} (hne : url ≠ []) (hnt : noTerm url = true)
    {rest : Str} {k : Nat} (hrest : spacesThenEOL rest = some k) :
    urlPart (url ++ ')' :: rest) = some (url.length + 1 + k) := by
  cases url with
  | nil => exact absurd rfl hne
  | cons c ur =>
    rw [noTerm, List.all_cons, Bool.and_eq_true] at hnt
    obtain ⟨hc, hur⟩ := hnt
    rw [Bool.not_eq_true'] at hc
    rw [List.cons_append]
    unfold urlPart
    dsimp only
    rw [hc, if_neg (by simp : ¬ (false = true))]
    rw [urlScan_final hur hrest]
    simp [List.length_cons]
    omega

/-! ### matchLinkAt: construction -/

theorem isPrefixOf_append (l z : Str) : List.isPrefixOf l (l ++ z) = true := by
  induction l with
  | nil => rw [List.nil_append]; cases z <;> rfl
  | cons c cs ih => simp [List.isPrefixOf, ih]

/-- Evaluation of `matchLinkAt` on a string in exact link-line shape
followed by a tail on which `\s*$` consumes `k` characters. -/
theorem matchLinkAt_build {t : Str} (ht : isTicketStr t = true) {url : Str}
    (hne : url ≠ []) (hnt : noTerm url = true) {rest : Str} {k : Nat}
    (hrest : spacesThenEOL rest = some k) :
    matchLinkAt (linkHeader ++ (t ++ (']' :: '(' :: (url ++ ')' :: rest)))) =
      some (linkHeader.length + t.length + 2 + (url.length + 1 + k), t.length) := by
  unfold matchLinkAt
  rw [isPrefixOf_append]
  dsimp only
  rw [List.drop_left]
  rw [ticketRun_append ht (Or.inr ⟨']', '(' :: (url ++ ')' :: rest), rfl, by decide⟩)]
  dsimp only
  rw [List.drop_left]
  dsimp only
  rw [if_pos rfl, if_pos rfl]
  rw [urlPart_final hne hnt hrest]

/-! ### Ticket character facts and the formatter link -/

theorem all_imp {p q : Char → Bool} {l : Str} (h : ∀ c, p c = true → q c = true)
    (hl : l.all p = true) : l.all q = true := by
  induction l with
  | nil => rfl
  | cons x xr ih =>
    rw [List.all_cons, Bool.and_eq_true] at hl ⊢
    exact ⟨h x hl.1, ih hl.2⟩

/-- Every character of a ticket has code point in `[45, 95]`. -/
theorem ticket_char_range {t : Str} (h : isTicketStr t = true) :
    t.all (fun c => 45 ≤ c.toNat && c.toNat ≤ 95) = true := by
  obtain ⟨a, M, D, hshape, hu, hM, hD, hne⟩ := isTicketStr_decomp h
  subst hshape
  rw [List.all_cons, Bool.and_eq_true]
  constructor
  · have := upper_toNat hu
    rw [Bool.and_eq_true, decide_eq_true_eq, decide_eq_true_eq]
    omega
  · rw [List.all_append, Bool.and_eq_true]
    constructor
    · refine all_imp (fun c hc => ?_) hM
      have := ticketMid_toNat hc
      unfold isTicketMid at hc
      rw [Bool.or_eq_true, Bool.or_eq_true] at hc
      rw [Bool.and_eq_true, decide_eq_true_eq, decide_eq_true_eq]
      rcases hc with (hc | hc) | hc
      · have := upper_toNat hc; omega
      · have := digit_toNat hc; omega
      · have hce : c = '_' := by simpa using hc
        subst hce; decide
    · rw [List.all_cons, Bool.and_eq_true]
      refine ⟨by decide, ?_⟩
      refine all_imp (fun c hc => ?_) hD
      have := digit_toNat hc
      rw [Bool.and_eq_true, decide_eq_true_eq, decide_eq_true_eq]
      omega

theorem range_notTerm {c : Char} (h : (45 ≤ c.toNat && c.toNat ≤ 95) = true) :
    (!isLineTerm c) = true := by
  rw [Bool.and_eq_true, decide_eq_true_eq, decide_eq_true_eq] at h
  rw [notTerm_of_ascii (by omega) (by omega)]
  rfl

theorem range_notSpace {c : Char} (h : (45 ≤ c.toNat && c.toNat ≤ 95) = true) :
    isSpaceJS c = false := by
  rw [Bool.and_eq_true, decide_eq_true_eq, decide_eq_true_eq] at h
  exact notSpace_of_ascii (by omega) (by omega)

theorem range_notDollar {c : Char} (h : (45 ≤ c.toNat && c.toNat ≤ 95) = true) :
    (c != '$') = true := by
  rw [Bool.and_eq_true, decide_eq_true_eq, decide_eq_true_eq] at h
  rw [bne_iff_ne]
  intro hc
  rw [char_eq_iff_toNat] at hc
  have : Char.toNat '$' = 36 := rfl
  omega

theorem ticket_noTerm {t : Str} (h : isTicketStr t = true) : noTerm t = true :=
  all_imp (fun _ hc => range_notTerm hc) (ticket_char_range h)

theorem ticket_noDollar {t : Str} (h : isTicketStr t = true) : noDollar t = true :=
  all_imp (fun _ hc => range_notDollar hc) (ticket_char_range h)

/-- The URL part of a formatter link is nonempty and terminator-free. -/
theorem url_facts {u t : Str} (hu : noTerm u = true) (ht : isTicketStr t = true) :
    (u ++ "/browse/".toList ++ t) ≠ [] ∧
    noTerm (u ++ "/browse/".toList ++ t) = true := by
  constructor
  · intro h0
    have := congrArg List.length h0
    simp [List.length_append] at this
  · rw [noTerm, List.all_append, List.all_append, Bool.and_eq_true, Bool.and_eq_true]
    exact ⟨⟨hu, by decide⟩, ticket_noTerm ht⟩

/-- `matchLinkAt` on a formatter link followed by a tail on which `\s*$`
consumes `k` characters: the match spans the link plus those `k`. -/
theorem matchLinkAt_link {u t : Str} (ht : isTicketStr t = true) (hu : noTerm u = true)
    {rest : Str} {k : Nat} (hrest : spacesThenEOL rest = some k) :
    matchLinkAt (generateJiraLink u t ++ rest) =
      some ((generateJiraLink u t).length + k, t.length) := by
  obtain ⟨hne, hnt⟩ := url_facts hu ht
  have harg : generateJiraLink u t ++ rest =
      linkHeader ++ (t ++ (']' :: '(' :: ((u ++ "/browse/".toList ++ t) ++ ')' :: rest))) := by
    simp [generateJiraLink]
  rw [harg, matchLinkAt_build ht hne hnt hrest]
  congr 2
  simp [generateJiraLink, List.length_append]
  omega

/-! ### Inversion lemmas -/

theorem dropWhile_head_neg {p : Char → Bool} {l r : Str} {c : Char}
    (h : l.dropWhile p = c :: r) : p c = false := by
  induction l with
  | nil => cases h
  | cons x xr ih =>
    by_cases hp : p x
    · rw [List.dropWhile_cons_of_pos hp] at h
      exact ih h
    · rw [List.dropWhile_cons_of_neg hp] at h
      injection h with h1 h2
      rw [← h1]
      cases hpx : p x
      · rfl
      · exact absurd hpx hp

theorem isPrefixOf_decomp {l s : Str} (h : List.isPrefixOf l s = true) :
    s = l ++ s.drop l.length := by
  induction l generalizing s with
  | nil => simp
  | cons c cs ih =>
    cases s with
    | nil => cases h
    | cons b bs =>
      rw [List.isPrefixOf, Bool.and_eq_true, beq_iff_eq] at h
      obtain ⟨hcb, hrest⟩ := h
      subst hcb
      rw [List.length_cons, List.drop_succ_cons, List.cons_append]
      congr 1
      exact ih hrest

theorem spacesThenEOL_le {xs : Str} {k : Nat} (h : spacesThenEOL xs = some k) :
    k ≤ xs.length := by
  induction xs generalizing k with
  | nil =>
    unfold spacesThenEOL at h
    injection h with h
    omega
  | cons x xr ih =>
    unfold spacesThenEOL at h
    by_cases hws : isSpaceJS x
    · rw [if_pos hws] at h
      cases hrec : spacesThenEOL xr with
      | some k2 =>
        rw [hrec] at h
        injection h with h
        have := ih hrec
        rw [List.length_cons]
        omega
      | none =>
        rw [hrec] at h
        by_cases ht : isLineTerm x
        · rw [if_pos ht] at h
          injection h with h
          omega
        · rw [if_neg ht] at h; cases h
    · rw [if_neg hws] at h; cases h

theorem ticketRun_inv {s : Str} {n : Nat} (h : ticketRun s = some n) :
    ∃ a M D r2, s = a :: (M ++ '-' :: (D ++ r2)) ∧ isUpperAZ a = true ∧
      M.all isTicketMid = true ∧ D.all isDigit09 = true ∧ D ≠ [] ∧
      (r2 = [] ∨ ∃ c r3, r2 = c :: r3 ∧ isDigit09 c = false) ∧
      n = 1 + M.length + 1 + D.length := by
  cases s with
  | nil => cases h
  | cons a cs =>
    unfold ticketRun at h
    by_cases hu : isUpperAZ a
    · simp only [hu, if_true] at h
      cases hdrop : cs.drop (cs.takeWhile isTicketMid).length with
      | nil => rw [hdrop] at h; simp at h
      | cons x rest =>
        rw [hdrop] at h
        dsimp only at h
        by_cases hx : x = '-'
        · rw [if_pos hx] at h
          subst hx
          by_cases hd : (rest.takeWhile isDigit09).length = 0
          · rw [if_pos hd] at h; cases h
          · rw [if_neg hd] at h
            injection h with hn
            have hcs : cs = cs.takeWhile isTicketMid ++ '-' :: rest := by
              conv_lhs => rw [← List.takeWhile_append_dropWhile isTicketMid cs]
              congr 1
              rw [← dropWhile_eq_drop_tw isTicketMid cs]
              exact hdrop
            have hrest : rest = rest.takeWhile isDigit09 ++ rest.dropWhile isDigit09 :=
              (List.takeWhile_append_dropWhile isDigit09 rest).symm
            refine ⟨a, cs.takeWhile isTicketMid, rest.takeWhile isDigit09,
              rest.dropWhile isDigit09, ?_, hu, all_takeWhile' _ _, all_takeWhile' _ _,
              ?_, ?_, ?_⟩
            · rw [← hrest, ← hcs]
            · intro h0
              rw [h0] at hd
              simp at hd
            · cases hdw : rest.dropWhile isDigit09 with
              | nil => exact Or.inl rfl
              | cons c r3 => exact Or.inr ⟨c, r3, rfl, dropWhile_head_neg hdw⟩
            · omega
        · rw [if_neg hx] at h; cases h
    · simp [hu] at h

theorem urlScan_inv {x : Str} {n : Nat} (h : urlScan x = some n) :
    ∃ pre tail k, x = pre ++ ')' :: tail ∧ noTerm pre = true ∧
      spacesThenEOL tail = some k ∧ n = pre.length + 1 + k := by
  induction x generalizing n with
  | nil => cases h
  | cons c cs ih =>
    unfold urlScan at h
    by_cases hp : c = ')'
    · rw [if_pos hp] at h
      subst hp
      cases hse : spacesThenEOL cs with
      | some k =>
        rw [hse] at h
        injection h with h
        exact ⟨[], cs, k, rfl, rfl, hse, by simp; omega⟩
      | none =>
        rw [hse] at h
        cases hsc : urlScan cs with
        | some n2 =>
          rw [hsc] at h
          injection h with h
          obtain ⟨pre, tail, k, h1, h2, h3, h4⟩ := ih hsc
          refine ⟨')' :: pre, tail, k, by rw [h1, List.cons_append], ?_, h3, by simp; omega⟩
          rw [noTerm, List.all_cons, Bool.and_eq_true]
          exact ⟨by decide, h2⟩
        | none => rw [hsc] at h; cases h
    · rw [if_neg hp] at h
      by_cases ht : isLineTerm c
      · rw [if_pos ht] at h; cases h
      · rw [if_neg ht] at h
        cases hsc : urlScan cs with
        | some n2 =>
          rw [hsc] at h
          injection h with h
          obtain ⟨pre, tail, k, h1, h2, h3, h4⟩ := ih hsc
          refine ⟨c :: pre, tail, k, by rw [h1, List.cons_append], ?_, h3, by simp; omega⟩
          rw [noTerm, List.all_cons, Bool.and_eq_true]
          refine ⟨?_, h2⟩
          have hb : isLineTerm c = false := by
            cases hb2 : isLineTerm c
            · rfl
            · exact absurd hb2 ht
          rw [hb]; rfl
        | none => rw [hsc] at h; cases h

theorem urlPart_inv {x : Str} {n : Nat} (h : urlPart x = some n) :
    ∃ url tail k, x = url ++ ')' :: tail ∧ url ≠ [] ∧ noTerm url = true ∧
      spacesThenEOL tail = some k ∧ n = url.length + 1 + k := by
  cases x with
  | nil => cases h
  | cons c cs =>
    unfold urlPart at h
    dsimp only at h
    by_cases ht : isLineTerm c
    · rw [if_pos ht] at h; cases h
    · rw [if_neg ht] at h
      cases hsc : urlScan cs with
      | some n2 =>
        rw [hsc] at h
        injection h with h
        obtain ⟨pre, tail, k, h1, h2, h3, h4⟩ := urlScan_inv hsc
        refine ⟨c :: pre, tail, k, by rw [h1, List.cons_append], by simp, ?_, h3, by simp; omega⟩
        rw [noTerm, List.all_cons, Bool.and_eq_true]
        refine ⟨?_, h2⟩
        have hb : isLineTerm c = false := by
          cases hb2 : isLineTerm c
          · rfl
          · exact absurd hb2 ht
        rw [hb]; rfl
      | none => rw [hsc] at h; cases h

/-- Full inversion of a successful link-line match. -/
theorem matchLinkAt_inv {s : Str} {len tl : Nat}
    (h : matchLinkAt s = some (len, tl)) :
    ∃ t url tail k, s = linkHeader ++ (t ++ (']' :: '(' :: (url ++ ')' :: tail))) ∧
      isTicketStr t = true ∧ t.length = tl ∧ url ≠ [] ∧ noTerm url = true ∧
      spacesThenEOL tail = some k ∧
      len = linkHeader.length + tl + 2 + url.length + 1 + k := by
  unfold matchLinkAt at h
  cases hpre : List.isPrefixOf linkHeader s with
  | false => rw [hpre] at h; cases h
  | true =>
    rw [hpre] at h
    dsimp only at h
    have hs : s = linkHeader ++ s.drop linkHeader.length := isPrefixOf_decomp hpre
    cases htr : ticketRun (s.drop linkHeader.length) with
    | none => rw [htr] at h; cases h
    | some n =>
      rw [htr] at h
      dsimp only at h
      obtain ⟨a, M, D, r2, hdec, hu, hM, hD, hDne, hr2, hn⟩ := ticketRun_inv htr
      -- the ticket part and the rest of the line
      have htk : isTicketStr (a :: (M ++ '-' :: D)) = true := by
        unfold isTicketStr
        have := ticketRun_eval a M D [] hu hM hDne hD (Or.inl rfl)
        rw [List.append_nil] at this
        rw [this]
        simp [List.length_append]
        omega
      have hlen_t : (a :: (M ++ '-' :: D)).length = n := by
        simp [List.length_append]
        omega
      have hsplit : s.drop linkHeader.length = (a :: (M ++ '-' :: D)) ++ r2 := by
        rw [hdec]; simp
      have hdrop2 : (s.drop linkHeader.length).drop n = r2 := by
        rw [hsplit, ← hlen_t, List.drop_left]
      rw [hdrop2] at h
      cases r2 with
      | nil => cases h
      | cons c1 rr =>
        cases rr with
        | nil => dsimp only at h; cases h
        | cons c2 s2 =>
          dsimp only at h
          by_cases hc1 : c1 = ']'
          · rw [if_pos hc1] at h
            by_cases hc2 : c2 = '('
            · rw [if_pos hc2] at h
              cases hup : urlPart s2 with
              | none => rw [hup] at h; cases h
              | some u =>
                rw [hup] at h
                injection h with h
                injection h with hlen htl
                obtain ⟨url, tail, k, hu1, hu2, hu3, hu4, hu5⟩ := urlPart_inv hup
                refine ⟨a :: (M ++ '-' :: D), url, tail, k, ?_, htk, ?_, hu2, hu3, hu4, ?_⟩
                · rw [hs]
                  congr 1
                  subst hc1
                  subst hc2
                  rw [hsplit, hu1]
                · rw [hlen_t]; exact htl
                · rw [← hlen, ← htl, hu5]
                  omega
            · rw [if_neg hc2] at h; cases h
          · rw [if_neg hc1] at h; cases h

/-! ### Line locality of matchLinkAt -/

theorem split_append {A B NT tail : Str} (h : A ++ B = NT ++ tail)
    (hle : NT.length ≤ A.length) : ∃ mid, A = NT ++ mid ∧ tail = mid ++ B := by
  induction NT generalizing A with
  | nil => exact ⟨A, rfl, by simpa using h.symm⟩
  | cons x xr ih =>
    cases A with
    | nil => simp at hle
    | cons a ar =>
      rw [List.cons_append, List.cons_append] at h
      injection h with h1 h2
      subst h1
      obtain ⟨mid, hm1, hm2⟩ := ih h2 (by simpa using hle)
      exact ⟨mid, by rw [List.cons_append, hm1], hm2⟩

theorem linkHeader_noTerm : noTerm linkHeader = true := by decide

/-- Whether the link-line pattern matches at a line start depends only on
the text up to the next line terminator. -/
theorem matchLinkAt_isSome_append {A B : Str} (hA : noTerm A = true)
    (hB : B = [] ∨ ∃ b B2, B = b :: B2 ∧ isLineTerm b = true) :
    (matchLinkAt (A ++ B)).isSome = (matchLinkAt A).isSome := by
  rcases hB with hB | ⟨b, B2, hB, hb⟩
  · subst hB; rw [List.append_nil]
  · subst hB
    cases hAB : matchLinkAt (A ++ b :: B2) with
    | some p =>
      obtain ⟨len, tl⟩ := p
      obtain ⟨t, url, tail, k, hshape, ht, htl, hune, hunt, hse, hlen⟩ := matchLinkAt_inv hAB
      -- the terminator-free part of the match
      have hshape2 : A ++ b :: B2 =
          (linkHeader ++ (t ++ (']' :: '(' :: (url ++ [')'])))) ++ tail := by
        rw [hshape]; simp
      have hNTnt : noTerm (linkHeader ++ (t ++ (']' :: '(' :: (url ++ [')'])))) = true := by
        rw [noTerm, List.all_append, Bool.and_eq_true]
        refine ⟨linkHeader_noTerm, ?_⟩
        rw [List.all_append, Bool.and_eq_true]
        refine ⟨ticket_noTerm ht, ?_⟩
        rw [List.all_cons, List.all_cons, Bool.and_eq_true, Bool.and_eq_true]
        refine ⟨by decide, by decide, ?_⟩
        rw [List.all_append, Bool.and_eq_true]
        exact ⟨hunt, by decide⟩
      by_cases hle : (linkHeader ++ (t ++ (']' :: '(' :: (url ++ [')'])))).length ≤ A.length
      · obtain ⟨mid, hm1, hm2⟩ := split_append hshape2 hle
        have hmidnt : noTerm mid = true := by
          have := hA
          rw [hm1, noTerm, List.all_append, Bool.and_eq_true] at this
          exact this.2
        have hmidws : mid.all isSpaceJS = true := by
          rw [hm2] at hse
          exact spacesThenEOL_all_ws hmidnt hse
        have hA_build : matchLinkAt A =
            some (linkHeader.length + t.length + 2 + (url.length + 1 + mid.length), t.length) := by
          have hAeq : A = linkHeader ++ (t ++ (']' :: '(' :: (url ++ ')' :: mid))) := by
            rw [hm1]; simp
          rw [hAeq]
          exact matchLinkAt_build ht hune hunt (spacesThenEOL_all mid hmidws hmidnt)
        rw [hA_build]
        rfl
      · -- the terminator-free core of the match would have to contain the terminator b
        exfalso
        have hle2 : A.length ≤ (linkHeader ++ (t ++ (']' :: '(' :: (url ++ [')'])))).length := by
          omega
        obtain ⟨mid2, hm1, hm2⟩ := split_append hshape2.symm hle2
        cases mid2 with
        | nil =>
          rw [List.append_nil] at hm1
          exact hle (le_of_eq (congrArg List.length hm1))
        | cons m mr =>
          rw [List.cons_append] at hm2
          injection hm2 with hmb
          subst hmb
          rw [hm1, noTerm, List.all_append, List.all_cons, Bool.and_eq_true] at hNTnt
          obtain ⟨_, hNT2⟩ := hNTnt
          rw [Bool.and_eq_true] at hNT2
          rw [hb] at hNT2
          simp at hNT2
    | none =>
      cases hAo : matchLinkAt A with
      | none => rfl
      | some p =>
        obtain ⟨len, tl⟩ := p
        obtain ⟨t, url, tail, k, hshape, ht, htl, hune, hunt, hse, hlen⟩ := matchLinkAt_inv hAo
        -- rebuild the match in the longer string
        have htailnt : noTerm tail = true := by
          have := hA
          rw [hshape] at this
          rw [noTerm, List.all_append, Bool.and_eq_true] at this
          obtain ⟨_, this⟩ := this
          rw [List.all_append, Bool.and_eq_true] at this
          obtain ⟨_, this⟩ := this
          rw [List.all_cons, List.all_cons, Bool.and_eq_true, Bool.and_eq_true] at this
          obtain ⟨_, _, this⟩ := this
          rw [List.all_append, Bool.and_eq_true] at this
          obtain ⟨_, this⟩ := this
          rw [List.all_cons, Bool.and_eq_true] at this
          exact this.2
        have htailws : tail.all isSpaceJS = true := by
          have h0 : tail = tail ++ [] := by simp
          rw [h0] at hse
          exact spacesThenEOL_all_ws htailnt hse
        have hsome : (spacesThenEOL (tail ++ b :: B2)).isSome = true :=
          spacesThenEOL_isSome_of_term B2 htailws hb
        obtain ⟨k2, hk2⟩ : ∃ k2, spacesThenEOL (tail ++ b :: B2) = some k2 := by
          cases hx : spacesThenEOL (tail ++ b :: B2) with
          | none => rw [hx] at hsome; cases hsome
          | some k2 => exact ⟨k2, rfl⟩
        have hshape3 : A ++ b :: B2 =
            linkHeader ++ (t ++ (']' :: '(' :: (url ++ ')' :: (tail ++ b :: B2)))) := by
          rw [hshape]; simp
        rw [hshape3, matchLinkAt_build ht hune hunt hk2] at hAB
        cases hAB

/-! ### skipLine and findLink structure -/

theorem skipLine_inv {P : Str} {n1 : Nat} {P1 : Str}
    (h : skipLine P = some (n1, P1)) :
    ∃ A c, P = A ++ c :: P1 ∧ noTerm A = true ∧ isLineTerm c = true ∧
      n1 = A.length + 1 := by
  induction P generalizing n1 with
  | nil => cases h
  | cons x xr ih =>
    unfold skipLine at h
    by_cases hx : isLineTerm x
    · rw [if_pos hx] at h
      injection h with h
      injection h with h1 h2
      subst h2
      exact ⟨[], x, by rw [List.nil_append], rfl, hx, by simp; omega⟩
    · rw [if_neg hx] at h
      cases hs : skipLine xr with
      | none => rw [hs] at h; cases h
      | some p =>
        obtain ⟨n2, r2⟩ := p
        rw [hs] at h
        dsimp only at h
        injection h with h
        injection h with h1 h2
        subst h2
        obtain ⟨A, c, ha1, ha2, ha3, ha4⟩ := ih hs
        refine ⟨x :: A, c, by rw [ha1, List.cons_append], ?_, ha3, by simp; omega⟩
        rw [noTerm, List.all_cons, Bool.and_eq_true]
        constructor
        · cases hb : isLineTerm x
          · rfl
          · exact absurd hb hx
        · exact ha2

theorem skipLine_append {A : Str} {c : Char} (X : Str)
    (hA : noTerm A = true) (hc : isLineTerm c = true) :
    skipLine (A ++ c :: X) = some (A.length + 1, X) := by
  induction A with
  | nil =>
    rw [List.nil_append]
    unfold skipLine
    rw [if_pos hc]
    simp
  | cons x xr ih =>
    rw [noTerm, List.all_cons, Bool.and_eq_true] at hA
    obtain ⟨hx, hxr⟩ := hA
    rw [Bool.not_eq_true'] at hx
    rw [List.cons_append]
    unfold skipLine
    rw [hx, if_neg (by simp : ¬ (false = true)), ih hxr]
    dsimp only
    rw [List.length_cons]

theorem skipLine_none {P : Str} (h : skipLine P = none) : noTerm P = true := by
  induction P with
  | nil => rfl
  | cons x xr ih =>
    unfold skipLine at h
    by_cases hx : isLineTerm x
    · rw [if_pos hx] at h; cases h
    · rw [if_neg hx] at h
      rw [noTerm, List.all_cons, Bool.and_eq_true]
      refine ⟨?_, ?_⟩
      · cases hb : isLineTerm x
        · rfl
        · exact absurd hb hx
      · cases hs : skipLine xr with
        | none => exact ih hs
        | some p => rw [hs] at h; dsimp only at h; cases h

theorem findLink_none_match {P : Str} (h : findLink P = none) :
    matchLinkAt P = none := by
  rw [findLink_eq] at h
  cases hm : matchLinkAt P with
  | none => rfl
  | some p => rw [hm] at h; obtain ⟨a, b⟩ := p; cases h

theorem findLink_none_step {P : Str} {n : Nat} {r : Str} (h : findLink P = none)
    (hs : skipLine P = some (n, r)) : findLink r = none := by
  have hm := findLink_none_match h
  rw [findLink_eq, hm, hs] at h
  dsimp only at h
  cases hf : findLink r with
  | none => rfl
  | some p =>
    obtain ⟨i, len, tl⟩ := p
    rw [hf] at h
    cases h

theorem findLink_nil : findLink ([] : Str) = none := by
  rw [findLink_eq]
  have h1 : matchLinkAt [] = none := by
    unfold matchLinkAt
    have : List.isPrefixOf linkHeader ([] : Str) = false := by decide
    rw [this]
  rw [h1]
  rfl

theorem matchLinkAt_term_head {c : Char} (X : Str) (hc : isLineTerm c = true) :
    matchLinkAt (c :: X) = none := by
  have hcne : ('🔗' == c) = false := by
    rw [beq_eq_false_iff_ne]
    intro h
    rw [← h] at hc
    exact absurd hc (by decide)
  unfold matchLinkAt
  have hh : linkHeader = '🔗' :: (" Linked to JIRA ticket: [".toList) := by decide
  rw [hh]
  have : List.isPrefixOf ('🔗' :: (" Linked to JIRA ticket: [".toList)) (c :: X) = false := by
    rw [List.isPrefixOf, hcne]
    rfl
  rw [this]

/-- A line-terminated (or empty) prefix with no link line shifts the
leftmost match: matching in `P ++ X` is matching in `X`, offset by
`P.length`.  The side condition also allows `X` empty or starting at a
line boundary, which keeps `P`'s final partial line intact. -/
theorem findLink_append : ∀ (n : Nat) (P X : Str), P.length ≤ n →
    findLink P = none →
    (P = [] ∨ (∃ Q c, P = Q ++ [c] ∧ isLineTerm c = true) ∨ X = [] ∨
     (∃ b B2, X = b :: B2 ∧ isLineTerm b = true)) →
    findLink (P ++ X) = (findLink X).map (fun p => (P.length + p.1, p.2.1, p.2.2)) := by
  intro n
  induction n with
  | zero =>
    intro P X hle hP hcond
    have hPnil : P = [] := List.length_eq_zero.mp (by omega)
    subst hPnil
    rw [List.nil_append, List.length_nil]
    cases findLink X with
    | none => rfl
    | some p => obtain ⟨i, len, tl⟩ := p; simp
  | succ n ih =>
    intro P X hle hP hcond
    cases hPn : P with
    | nil =>
      rw [List.nil_append, List.length_nil]
      cases findLink X with
      | none => rfl
      | some p => obtain ⟨i, len, tl⟩ := p; simp
    | cons p0 pr =>
      rw [← hPn]
      have hPne : P ≠ [] := by rw [hPn]; simp
      cases hsk : skipLine P with
      | some q =>
        obtain ⟨n1, P1⟩ := q
        obtain ⟨A, c, hP1, hAnt, hc, hn1⟩ := skipLine_inv hsk
        have hmP : matchLinkAt P = none := findLink_none_match hP
        have hfP1 : findLink P1 = none := findLink_none_step hP hsk
        -- the first line of P ++ X is the same line A
        have hmPX : matchLinkAt (P ++ X) = none := by
          have h1 : (matchLinkAt (A ++ c :: (P1 ++ X))).isSome =
              (matchLinkAt A).isSome :=
            matchLinkAt_isSome_append hAnt (Or.inr ⟨c, P1 ++ X, rfl, hc⟩)
          have h2 : (matchLinkAt (A ++ c :: P1)).isSome = (matchLinkAt A).isSome :=
            matchLinkAt_isSome_append hAnt (Or.inr ⟨c, P1, rfl, hc⟩)
          rw [← hP1, hmP] at h2
          have h3 : P ++ X = A ++ c :: (P1 ++ X) := by rw [hP1]; simp
          rw [h3]
          cases hmm : matchLinkAt (A ++ c :: (P1 ++ X)) with
          | none => rfl
          | some pp =>
            rw [hmm] at h1
            rw [← h1] at h2
            simp at h2
        have hskPX : skipLine (P ++ X) = some (A.length + 1, P1 ++ X) := by
          have h3 : P ++ X = A ++ c :: (P1 ++ X) := by rw [hP1]; simp
          rw [h3]
          exact skipLine_append (P1 ++ X) hAnt hc
        -- the induction hypothesis applies to the shorter P1
        have hlen1 : P1.length ≤ n := by
          have := congrArg List.length hP1
          simp [List.length_append] at this
          omega
        have hcond1 : P1 = [] ∨ (∃ Q2 c2, P1 = Q2 ++ [c2] ∧ isLineTerm c2 = true) ∨
            X = [] ∨ (∃ b B2, X = b :: B2 ∧ isLineTerm b = true) := by
          rcases hcond with hPnil | ⟨Q, c0, hQ, hc0⟩ | hX
          · exact absurd hPnil hPne
          · cases hP1nil : P1 with
            | nil => exact Or.inl rfl
            | cons q1 qr =>
              right; left
              have h5 : P1 ≠ [] := by rw [hP1nil]; simp
              have h4 : A ++ c :: P1 = Q ++ [c0] := by rw [← hP1, hQ]
              obtain ⟨P1a, c0x, hP1e⟩ : ∃ t c2, P1 = t ++ [c2] := by
                refine ⟨P1.dropLast, P1.getLast h5, ?_⟩
                exact (List.dropLast_append_getLast h5).symm
              have h7 : c0x = c0 := by
                have h6 : (A ++ c :: P1a) ++ [c0x] = Q ++ [c0] := by
                  rw [← h4, hP1e]; simp
                have := congrArg List.getLast? h6
                rw [List.getLast?_concat, List.getLast?_concat] at this
                injection this
              exact ⟨P1a, c0, by rw [h7] at hP1e; rw [← hP1nil]; exact hP1e, hc0⟩
          · right; right; exact hX
        rw [findLink_eq, hmPX, hskPX]
        dsimp only
        rw [ih P1 X hlen1 hfP1 hcond1]
        cases findLink X with
        | none => rfl
        | some p =>
          obtain ⟨i, len, tl⟩ := p
          dsimp only [Option.map]
          have hPlen : P.length = A.length + 1 + P1.length := by
            have := congrArg List.length hP1
            simp [List.length_append] at this
            omega
          rw [hPlen]
          congr 2
          omega
      | none =>
        -- P has no terminator at all: it cannot end with one, so X starts at a boundary
        have hPnt : noTerm P = true := skipLine_none hsk
        rcases hcond with hPnil | ⟨Q, c0, hQ, hc0⟩ | hX | ⟨b, B2, hXb, hb⟩
        · exact absurd hPnil hPne
        · exfalso
          rw [hQ, noTerm, List.all_append, Bool.and_eq_true] at hPnt
          have := hPnt.2
          rw [List.all_cons, Bool.and_eq_true] at this
          rw [hc0] at this
          simp at this
        · subst hX
          rw [List.append_nil, hP, findLink_nil]
          rfl
        · subst hXb
          have hmP : matchLinkAt P = none := findLink_none_match hP
          have hmPX : matchLinkAt (P ++ b :: B2) = none := by
            have h1 : (matchLinkAt (P ++ b :: B2)).isSome = (matchLinkAt P).isSome :=
              matchLinkAt_isSome_append hPnt (Or.inr ⟨b, B2, rfl, hb⟩)
            rw [hmP] at h1
            cases hmm : matchLinkAt (P ++ b :: B2) with
            | none => rfl
            | some pp => rw [hmm] at h1; simp at h1
          have hskPX : skipLine (P ++ b :: B2) = some (P.length + 1, B2) :=
            skipLine_append B2 hPnt hb
          have hmX : matchLinkAt (b :: B2) = none := matchLinkAt_term_head B2 hb
          have hskX : skipLine (b :: B2) = some (1, B2) := by
            unfold skipLine
            rw [if_pos hb]
          rw [findLink_eq, hmPX, hskPX]
          dsimp only
          conv_rhs => rw [findLink_eq]
          rw [hmX, hskX]
          dsimp only
          cases findLink B2 with
          | none => rfl
          | some p =>
            obtain ⟨i, len, tl⟩ := p
            dsimp only [Option.map]
            congr 2
            omega

theorem opt_none_of_isSome_false {α : Type} {x : Option α} (h : x.isSome = false) :
    x = none := by
  cases x with
  | none => rfl
  | some v => simp at h

/-- Inversion of a successful `findLink`: the string splits into a
line-terminated (or empty) link-free prefix of length `i` and a tail
whose head line matches. -/
theorem findLink_inv : ∀ (n : Nat) (s : Str), s.length ≤ n →
    ∀ {i len tl : Nat}, findLink s = some (i, len, tl) →
    ∃ P R, s = P ++ R ∧ P.length = i ∧
      (P = [] ∨ ∃ Q c, P = Q ++ [c] ∧ isLineTerm c = true) ∧
      matchLinkAt R = some (len, tl) ∧ findLink P = none := by
  intro n
  induction n with
  | zero =>
    intro s hle i len tl h
    have hnil : s = [] := List.length_eq_zero.mp (by omega)
    subst hnil
    rw [findLink_nil] at h; cases h
  | succ n ih =>
    intro s hle i len tl h
    rw [findLink_eq] at h
    cases hm : matchLinkAt s with
    | some p =>
      obtain ⟨len0, tl0⟩ := p
      rw [hm] at h
      dsimp only at h
      injection h with h
      injection h with h1 h2
      injection h2 with h2 h3
      refine ⟨[], s, by simp, by simp [← h1], Or.inl rfl, by rw [hm, h2, h3], findLink_nil⟩
    | none =>
      rw [hm] at h
      dsimp only at h
      cases hsk : skipLine s with
      | none => rw [hsk] at h; cases h
      | some q =>
        obtain ⟨n1, r⟩ := q
        rw [hsk] at h
        dsimp only at h
        cases hf : findLink r with
        | none => rw [hf] at h; cases h
        | some p2 =>
          obtain ⟨i2, len2, tl2⟩ := p2
          rw [hf] at h
          dsimp only at h
          injection h with h
          injection h with h1 h2
          injection h2 with h2 h3
          obtain ⟨A, c, hs1, hAnt, hc, hn1⟩ := skipLine_inv hsk
          have hrlen : r.length ≤ n := by
            have := congrArg List.length hs1
            simp [List.length_append] at this
            omega
          obtain ⟨P2, R, hr1, hr2, hr3, hr4, hr5⟩ := ih r hrlen hf
          have hmA : (matchLinkAt A).isSome = false := by
            have hms : matchLinkAt (A ++ c :: r) = none := by
              rw [← hs1]; exact hm
            have hiff := matchLinkAt_isSome_append hAnt (Or.inr ⟨c, r, rfl, hc⟩)
            rw [hms] at hiff
            exact hiff.symm
          have hm2 : matchLinkAt (A ++ c :: P2) = none := by
            have hiff := matchLinkAt_isSome_append hAnt (Or.inr ⟨c, P2, rfl, hc⟩)
            rw [hmA] at hiff
            exact opt_none_of_isSome_false hiff
          refine ⟨A ++ c :: P2, R, ?_, ?_, ?_, by rw [hr4, h2, h3], ?_⟩
          · rw [hs1, hr1]; simp
          · simp [List.length_append]
            omega
          · rcases hr3 with hP2nil | ⟨Q2, c2, hQ2, hc2⟩
            · subst hP2nil
              exact Or.inr ⟨A, c, by simp, hc⟩
            · exact Or.inr ⟨A ++ c :: Q2, c2, by rw [hQ2]; simp, hc2⟩
          · rw [findLink_eq, hm2, skipLine_append P2 hAnt hc]
            dsimp only
            rw [hr5]

/-! ### Replacement-level lemmas -/

theorem expandRepl_noDollar (matched pre post g1 : Str) {tmpl : Str}
    (h : noDollar tmpl = true) : expandRepl matched pre post g1 tmpl = tmpl := by
  induction tmpl with
  | nil => rfl
  | cons c rest ih =>
    rw [noDollar, List.all_cons, Bool.and_eq_true] at h
    obtain ⟨hc, hrest⟩ := h
    have hcne : ¬ (c = '$') := by
      rw [bne_iff_ne] at hc
      exact hc
    unfold expandRepl
    rw [if_neg hcne]
    rw [ih hrest]

theorem noDollar_append (a b : Str) :
    noDollar (a ++ b) = (noDollar a && noDollar b) := by
  rw [noDollar, noDollar, noDollar, List.all_append]

theorem noDollar_cons (c : Char) (a : Str) :
    noDollar (c :: a) = ((c != '$') && noDollar a) := by
  rw [noDollar, noDollar, List.all_cons]

theorem link_noDollar {u t : Str} (hu : noDollar u = true) (ht : isTicketStr t = true) :
    noDollar (generateJiraLink u t) = true := by
  unfold generateJiraLink
  simp only [noDollar_append, noDollar_cons, Bool.and_eq_true]
  exact ⟨⟨by decide, ticket_noDollar ht⟩, by decide, by decide,
    ⟨⟨hu, by decide⟩, ticket_noDollar ht⟩, by decide, by decide⟩

theorem replaceLink_shape {body link : Str} {i len tl : Nat}
    (hfind : findLink body = some (i, len, tl)) (hnd : noDollar link = true) :
    replaceLink body link = body.take i ++ link ++ body.drop (i + len) := by
  unfold replaceLink
  rw [hfind]
  dsimp only
  rw [expandRepl_noDollar _ _ _ _ hnd]

/-- Split form of a successful `findLink`, with the greedy-maximality
residue: after the match, `\s*$` consumes nothing. -/
theorem findLink_some_split {body : Str} {i len tl : Nat}
    (h : findLink body = some (i, len, tl)) :
    ∃ P R, body = P ++ R ∧ P.length = i ∧ len ≤ R.length ∧
      (P = [] ∨ ∃ Q c, P = Q ++ [c] ∧ isLineTerm c = true) ∧
      findLink P = none ∧ spacesThenEOL (R.drop len) = some 0 := by
  obtain ⟨P, R, h1, h2, h3, h4, h5⟩ := findLink_inv body.length body le_rfl h
  obtain ⟨t, url, tail, k, hsh, ht, htl, hune, hunt, hse, hlen⟩ := matchLinkAt_inv h4
  refine ⟨P, R, h1, h2, ?_, h3, h5, ?_⟩
  · have hklen : k ≤ tail.length := spacesThenEOL_le hse
    have := congrArg List.length hsh
    simp [List.length_append] at this
    omega
  · have hre : R = (linkHeader ++ (t ++ (']' :: '(' :: (url ++ [')'])))) ++ tail := by
      rw [hsh]; simp
    have hlen2 : (linkHeader ++ (t ++ (']' :: '(' :: (url ++ [')'])))).length + k = len := by
      simp [List.length_append]
      omega
    have hdrop : R.drop len = tail.drop k := by
      rw [hre, ← hlen2, List.drop_append]
    rw [hdrop]
    exact spacesThenEOL_idem hse

/-- The first match in `P ++ (link ++ S)` for a link-free, line-terminated
prefix `P` and a stable tail `S` is exactly the formatter link. -/
theorem findLink_P_link_S {P S u t : Str} (ht : isTicketStr t = true)
    (hu : noTerm u = true) (hP : findLink P = none)
    (hPcond : P = [] ∨ ∃ Q c, P = Q ++ [c] ∧ isLineTerm c = true)
    (hS : spacesThenEOL S = some 0) :
    findLink (P ++ (generateJiraLink u t ++ S)) =
      some (P.length, (generateJiraLink u t).length, t.length) := by
  have h1 : findLink (generateJiraLink u t ++ S) =
      some (0, (generateJiraLink u t).length, t.length) := by
    rw [findLink_eq, matchLinkAt_link ht hu hS]
    dsimp only
    rw [Nat.add_zero]
  rw [findLink_append P.length P _ le_rfl hP ?_]
  · rw [h1]
    dsimp only [Option.map]
    rw [Nat.add_zero]
  · rcases hPcond with h | h
    · exact Or.inl h
    · exact Or.inr (Or.inl h)

/-! ### Trim of whitespace-wrapped strings -/

theorem dropWhile_ws_append {w : Str} (x : Str) (hw : w.all isSpaceJS = true) :
    (w ++ x).dropWhile isSpaceJS = x.dropWhile isSpaceJS := by
  induction w with
  | nil => rw [List.nil_append]
  | cons a ar ih =>
    rw [List.all_cons, Bool.and_eq_true] at hw
    rw [List.cons_append, List.dropWhile_cons_of_pos hw.1, ih hw.2]

theorem trimStr_ws_wrap {a b : Char} (mid : Str) {w1 w2 : Str}
    (ha : isSpaceJS a = false) (hb : isSpaceJS b = false)
    (h1 : w1.all isSpaceJS = true) (h2 : w2.all isSpaceJS = true) :
    trimStr (w1 ++ ((a :: (mid ++ [b])) ++ w2)) = a :: (mid ++ [b]) := by
  unfold trimStr
  rw [dropWhile_ws_append _ h1]
  have hx : ((a :: (mid ++ [b])) ++ w2).dropWhile isSpaceJS = (a :: (mid ++ [b])) ++ w2 := by
    rw [List.cons_append]
    exact dropWhile_cons_ne a _ ha
  rw [hx]
  have hrev : ((a :: (mid ++ [b])) ++ w2).reverse = w2.reverse ++ (b :: (mid.reverse ++ [a])) := by
    rw [List.reverse_append, List.reverse_cons, List.reverse_append]
    simp
  rw [hrev, dropWhile_ws_append _ (by rw [List.all_reverse]; exact h2),
    dropWhile_cons_ne b _ hb]
  rw [List.reverse_cons, List.reverse_append, List.reverse_reverse]
  simp

/-- The formatter link in head-middle-last shape. -/
theorem link_shape (u t : Str) :
    generateJiraLink u t =
      '🔗' :: ((" Linked to JIRA ticket: [".toList ++ t ++ ']' :: '(' ::
        (u ++ "/browse/".toList ++ t)) ++ [')']) := by
  unfold generateJiraLink
  have hh : linkHeader = '🔗' :: " Linked to JIRA ticket: [".toList := by decide
  rw [hh]
  simp

/-- Trimming concatenations that wrap the link in whitespace. -/
theorem trim_ws_link_ws {u t : Str} {w1 w2 : Str}
    (h1 : w1.all isSpaceJS = true) (h2 : w2.all isSpaceJS = true) :
    trimStr (w1 ++ ((generateJiraLink u t) ++ w2)) = generateJiraLink u t := by
  rw [link_shape]
  exact trimStr_ws_wrap _ (by decide) (by decide) h1 h2

/-! ### Fixed points of the update operation -/

theorem findLink_link {u t : Str} (ht : isTicketStr t = true) (hu : noTerm u = true) :
    findLink (generateJiraLink u t) =
      some (0, (generateJiraLink u t).length, t.length) := by
  have h0 : generateJiraLink u t = generateJiraLink u t ++ [] := by simp
  rw [findLink_eq]
  conv_lhs => rw [h0]
  rw [matchLinkAt_link ht hu (show spacesThenEOL [] = some 0 from rfl)]
  dsimp only
  rw [Nat.add_zero]

/-- After a successful replacement with a clean formatter link, the body is
a fixed point: the link is found again at the same position, matched
exactly, and replaced by itself. -/
theorem replace_fixed_point {body u t : Str} {i len tl : Nat} (mode : String)
    (ht : isTicketStr t = true) (hu : noTerm u = true) (hd : noDollar u = true)
    (hfind : findLink body = some (i, len, tl)) :
    updatePRBodyWithJiraLink body (generateJiraLink u t) mode =
      .ok (body.take i ++ generateJiraLink u t ++ body.drop (i + len)) ∧
    findLink (body.take i ++ generateJiraLink u t ++ body.drop (i + len)) =
      some (i, (generateJiraLink u t).length, t.length) ∧
    updatePRBodyWithJiraLink (body.take i ++ generateJiraLink u t ++ body.drop (i + len))
      (generateJiraLink u t) mode =
      .ok (body.take i ++ generateJiraLink u t ++ body.drop (i + len)) := by
  have hnd : noDollar (generateJiraLink u t) = true := link_noDollar hd ht
  obtain ⟨P, R, hbody, hPlen, hlenR, hPcond, hPnone, hS0⟩ := findLink_some_split hfind
  have htake : body.take i = P := by
    rw [hbody, List.take_left' hPlen]
  have hdrop : body.drop (i + len) = R.drop len := by
    rw [hbody, ← hPlen, List.drop_append]
  have hb1 : body.take i ++ generateJiraLink u t ++ body.drop (i + len) =
      P ++ (generateJiraLink u t ++ R.drop len) := by
    rw [htake, hdrop, List.append_assoc]
  have hfind1 : findLink (body.take i ++ generateJiraLink u t ++ body.drop (i + len)) =
      some (i, (generateJiraLink u t).length, t.length) := by
    rw [hb1, findLink_P_link_S ht hu hPnone hPcond hS0, hPlen]
  refine ⟨?_, hfind1, ?_⟩
  · unfold updatePRBodyWithJiraLink
    rw [hfind]
    dsimp only
    rw [replaceLink_shape hfind hnd]
  · unfold updatePRBodyWithJiraLink
    rw [hfind1]
    dsimp only
    rw [replaceLink_shape hfind1 hnd]
    congr 1
    -- the replaced region is exactly the link, so the result is unchanged
    rw [hb1]
    have ht1 : (P ++ (generateJiraLink u t ++ R.drop len)).take i = P := by
      rw [List.take_left' hPlen]
    have ht2 : (P ++ (generateJiraLink u t ++ R.drop len)).drop
        (i + (generateJiraLink u t).length) = R.drop len := by
      have hsh : P ++ (generateJiraLink u t ++ R.drop len) =
          (P ++ generateJiraLink u t) ++ R.drop len := by simp
      rw [hsh, List.drop_left']
      rw [List.length_append, hPlen]
    rw [ht1, ht2]
    simp

theorem spacesThenEOL_nl_cons {c : Char} (bt : Str) (hc : isSpaceJS c = false) :
    spacesThenEOL ('\n' :: c :: bt) = some 0 := by
  have hin : spacesThenEOL (c :: bt) = none := by
    unfold spacesThenEOL
    rw [if_neg (by rw [hc]; exact Bool.false_ne_true)]
  unfold spacesThenEOL
  rw [if_pos (by decide), hin]
  dsimp only
  rw [if_pos (by decide)]

theorem spacesThenEOL_nl_nl_cons {c : Char} (bt : Str) (hc : isSpaceJS c = false) :
    spacesThenEOL ('\n' :: '\n' :: c :: bt) = some 1 := by
  unfold spacesThenEOL
  rw [if_pos (by decide), spacesThenEOL_nl_cons bt hc]

theorem findLink_nl_nl {X : Str} {L T : Nat} (h : findLink X = some (0, L, T)) :
    findLink ('\n' :: '\n' :: X) = some (2, L, T) := by
  have h2 : findLink ('\n' :: X) = some (1, L, T) := by
    rw [findLink_eq, matchLinkAt_term_head _ (by decide)]
    have hsk2 : skipLine ('\n' :: X) = some (1, X) := by
      unfold skipLine; rw [if_pos (by decide)]
    rw [hsk2]
    dsimp only
    rw [h]
  rw [findLink_eq, matchLinkAt_term_head _ (by decide)]
  have hsk : skipLine ('\n' :: '\n' :: X) = some (1, '\n' :: X) := by
    unfold skipLine; rw [if_pos (by decide)]
  rw [hsk]
  dsimp only
  rw [h2]

/-- Inserting at `body-end` produces a fixed point of the update. -/
theorem insert_end_fixed {body u t : Str}
    (ht : isTicketStr t = true) (hu : noTerm u = true) (hd : noDollar u = true)
    (hfind : findLink body = none) (htrim : trimStr body = body) :
    ∃ b1, updatePRBodyWithJiraLink body (generateJiraLink u t) "body-end" = .ok b1 ∧
      updatePRBodyWithJiraLink b1 (generateJiraLink u t) "body-end" = .ok b1 := by
  have hnd := link_noDollar hd ht
  by_cases hb : body = []
  · subst hb
    refine ⟨generateJiraLink u t, ?_, ?_⟩
    · unfold updatePRBodyWithJiraLink
      rw [findLink_nil]
      dsimp only
      rw [if_neg (by decide), if_pos rfl]
      congr 1
      have hsh : ([] : Str) ++ '\n' :: '\n' :: generateJiraLink u t =
          ['\n', '\n'] ++ (generateJiraLink u t ++ []) := by simp
      rw [hsh, trim_ws_link_ws (by decide) (by decide)]
    · have hfl := findLink_link ht hu
      unfold updatePRBodyWithJiraLink
      rw [hfl]
      dsimp only
      rw [replaceLink_shape hfl hnd]
      rw [List.take_zero, List.nil_append, Nat.zero_add, List.drop_length,
        List.append_nil]
  · obtain ⟨c, bt, hbc, hc⟩ := trimStable_head htrim hb
    refine ⟨body ++ '\n' :: '\n' :: generateJiraLink u t, ?_, ?_⟩
    · unfold updatePRBodyWithJiraLink
      rw [hfind]
      dsimp only
      rw [if_neg (by decide), if_pos rfl]
      congr 1
      have hsh : body ++ '\n' :: '\n' :: generateJiraLink u t =
          c :: ((bt ++ '\n' :: '\n' :: '🔗' ::
            (" Linked to JIRA ticket: [".toList ++ t ++ ']' :: '(' ::
              (u ++ "/browse/".toList ++ t))) ++ [')']) := by
        rw [hbc, link_shape]
        simp
      rw [hsh, trimStr_cons_concat c _ ')' hc (by decide), ← hsh]
    · have hfind1 : findLink (body ++ '\n' :: '\n' :: generateJiraLink u t) =
          some (body.length + 2, (generateJiraLink u t).length, t.length) := by
        rw [findLink_append body.length body _ le_rfl hfind
          (Or.inr (Or.inr (Or.inr ⟨'\n', _, rfl, by decide⟩)))]
        rw [findLink_nl_nl (findLink_link ht hu)]
        rfl
      unfold updatePRBodyWithJiraLink
      rw [hfind1]
      dsimp only
      rw [replaceLink_shape hfind1 hnd]
      have hsh2 : body ++ '\n' :: '\n' :: generateJiraLink u t =
          (body ++ ['\n', '\n']) ++ generateJiraLink u t := by simp
      have hlen2 : (body ++ ['\n', '\n']).length = body.length + 2 := by simp
      have htk : (body ++ '\n' :: '\n' :: generateJiraLink u t).take (body.length + 2) =
          body ++ ['\n', '\n'] := by
        rw [hsh2, List.take_left' hlen2]
      have hdp : (body ++ '\n' :: '\n' :: generateJiraLink u t).drop
          (body.length + 2 + (generateJiraLink u t).length) = [] := by
        rw [hsh2, ← hlen2, List.drop_append, List.drop_length]
      rw [htk, hdp]
      congr 1
      simp

/-- Inserting at `body-start` into a nonempty trimmed body: the second
application collapses the blank line after the link, and the result of
that second application is a fixed point. -/
theorem insert_start_behavior {body u t : Str}
    (ht : isTicketStr t = true) (hu : noTerm u = true) (hd : noDollar u = true)
    (hfind : findLink body = none) (htrim : trimStr body = body) (hb : body ≠ []) :
    updatePRBodyWithJiraLink body (generateJiraLink u t) "body-start" =
      .ok (generateJiraLink u t ++ '\n' :: '\n' :: body) ∧
    updatePRBodyWithJiraLink (generateJiraLink u t ++ '\n' :: '\n' :: body)
      (generateJiraLink u t) "body-start" =
      .ok (generateJiraLink u t ++ '\n' :: body) ∧
    updatePRBodyWithJiraLink (generateJiraLink u t ++ '\n' :: body)
      (generateJiraLink u t) "body-start" =
      .ok (generateJiraLink u t ++ '\n' :: body) := by
  have hnd := link_noDollar hd ht
  obtain ⟨c, bt, hbc, hc⟩ := trimStable_head htrim hb
  obtain ⟨b2t, d, hbl, hd2⟩ := trimStable_last htrim hb
  have hfind1 : findLink (generateJiraLink u t ++ '\n' :: '\n' :: body) =
      some (0, (generateJiraLink u t).length + 1, t.length) := by
    rw [findLink_eq]
    rw [show '\n' :: '\n' :: body = '\n' :: '\n' :: c :: bt by rw [hbc]]
    rw [matchLinkAt_link ht hu (spacesThenEOL_nl_nl_cons bt hc)]
  have hfind2 : findLink (generateJiraLink u t ++ '\n' :: body) =
      some (0, (generateJiraLink u t).length, t.length) := by
    rw [findLink_eq]
    rw [show '\n' :: body = '\n' :: c :: bt by rw [hbc]]
    rw [matchLinkAt_link ht hu (spacesThenEOL_nl_cons bt hc)]
    dsimp only
    rw [Nat.add_zero]
  refine ⟨?_, ?_, ?_⟩
  · unfold updatePRBodyWithJiraLink
    rw [hfind]
    dsimp only
    rw [if_pos rfl]
    congr 1
    have hsh : generateJiraLink u t ++ '\n' :: '\n' :: body =
        '🔗' :: (((" Linked to JIRA ticket: [".toList ++ t ++ ']' :: '(' ::
          (u ++ "/browse/".toList ++ t)) ++ [')'] ++ '\n' :: '\n' :: b2t) ++ [d]) := by
      rw [link_shape]
      conv_lhs => rw [hbl]
      simp
    rw [hsh, trimStr_cons_concat '🔗' _ d (by decide) hd2, ← hsh]
  · unfold updatePRBodyWithJiraLink
    rw [hfind1]
    dsimp only
    rw [replaceLink_shape hfind1 hnd]
    rw [List.take_zero, List.nil_append, Nat.zero_add]
    congr 1
    rw [show generateJiraLink u t ++ '\n' :: '\n' :: body =
      generateJiraLink u t ++ ('\n' :: '\n' :: body) from rfl]
    rw [show (generateJiraLink u t).length + 1 =
      (generateJiraLink u t).length + 1 from rfl]
    rw [List.drop_append]
    rfl
  · unfold updatePRBodyWithJiraLink
    rw [hfind2]
    dsimp only
    rw [replaceLink_shape hfind2 hnd]
    rw [List.take_zero, List.nil_append, Nat.zero_add]
    congr 1
    rw [show (generateJiraLink u t).length =
      (generateJiraLink u t).length + 0 by omega]
    rw [List.drop_append]
    rfl

/-- Replacing a lone formatter link by itself leaves it unchanged, for any
mode (the replace branch precedes the mode check). -/
theorem update_link_self_fixed {u t : Str} (mode : String)
    (ht : isTicketStr t = true) (hu : noTerm u = true) (hd : noDollar u = true) :
    updatePRBodyWithJiraLink (generateJiraLink u t) (generateJiraLink u t) mode =
      .ok (generateJiraLink u t) := by
  have hnd := link_noDollar hd ht
  have hfl := findLink_link ht hu
  unfold updatePRBodyWithJiraLink
  rw [hfl]
  dsimp only
  rw [replaceLink_shape hfl hnd]
  rw [List.take_zero, List.nil_append, Nat.zero_add, List.drop_length, List.append_nil]

/-- Inserting at `body-start` into the empty body gives just the link. -/
theorem insert_start_nil_fixed {u t : Str}
    (ht : isTicketStr t = true) (hu : noTerm u = true) (hd : noDollar u = true) :
    updatePRBodyWithJiraLink [] (generateJiraLink u t) "body-start" =
      .ok (generateJiraLink u t) ∧
    updatePRBodyWithJiraLink (generateJiraLink u t) (generateJiraLink u t) "body-start" =
      .ok (generateJiraLink u t) := by
  refine ⟨?_, update_link_self_fixed "body-start" ht hu hd⟩
  unfold updatePRBodyWithJiraLink
  rw [findLink_nil]
  dsimp only
  rw [if_pos rfl]
  congr 1
  have hsh : generateJiraLink u t ++ '\n' :: '\n' :: ([] : Str) =
      ([] : Str) ++ (generateJiraLink u t ++ ['\n', '\n']) := by simp
  rw [hsh, trim_ws_link_ws (by decide) (by decide)]

/-! ### Claim C1 -/

/--
Claim C1 (amended): with a trim-stable body and a formatter link built
from a `$`-free, terminator-free base URL, reconciliation stabilizes by
the second application: the output of the second call is a fixed point of
the operation.  Moreover the second call already returns the first
result unchanged (`changed = false`) whenever the mode is `body-end`, the
body already contains a link line, or the body is empty.  (As originally
stated — `changed = false` on the second call for **all** inputs — the
claim is false: a `body-start` insertion into a nonempty body is changed
again by the second call, which collapses the blank line after the link,
because the `\s*$` part of the link-line pattern greedily absorbs the
newline that follows the link.)
-/
theorem claim_C1 (body u t : Str) (mode : String)
    (ht : isTicketStr t = true) (hu : noTerm u = true) (hd : noDollar u = true)
    (htrim : trimStr body = body)
    (hmode : mode = "body-start" ∨ mode = "body-end") :
    ∃ b1 b2,
      updatePRBodyWithJiraLink body (generateJiraLink u t) mode = .ok b1 ∧
      updatePRBodyWithJiraLink b1 (generateJiraLink u t) mode = .ok b2 ∧
      updatePRBodyWithJiraLink b2 (generateJiraLink u t) mode = .ok b2 ∧
      ((mode = "body-end" ∨ (findLink body).isSome = true ∨ body = []) → b2 = b1) := by
  cases hf : findLink body with
  | some p =>
    obtain ⟨i, len, tl⟩ := p
    obtain ⟨h1, _, h3⟩ := replace_fixed_point mode ht hu hd hf
    exact ⟨_, _, h1, h3, h3, fun _ => rfl⟩
  | none =>
    rcases hmode with hm | hm
    · subst hm
      by_cases hb : body = []
      · subst hb
        obtain ⟨h1, h2⟩ := insert_start_nil_fixed ht hu hd
        exact ⟨_, _, h1, h2, h2, fun _ => rfl⟩
      · obtain ⟨h1, h2, h3⟩ := insert_start_behavior ht hu hd hf htrim hb
        refine ⟨_, _, h1, h2, h3, ?_⟩
        intro hcase
        rcases hcase with hcase | hcase | hcase
        · exact absurd hcase (by decide)
        · simp at hcase
        · exact absurd hcase hb
    · subst hm
      obtain ⟨b1, h1, h2⟩ := insert_end_fixed ht hu hd hf htrim
      exact ⟨b1, b1, h1, h2, h2, fun _ => rfl⟩

/-- Witness for C1 at body `"Hello"`, the sample link, mode `body-end`. -/
theorem claim_C1_witness :
    ∃ b1 b2,
      updatePRBodyWithJiraLink ("Hello".toList) (generateJiraLink urlJ ("T-1".toList))
        "body-end" = .ok b1 ∧
      updatePRBodyWithJiraLink b1 (generateJiraLink urlJ ("T-1".toList)) "body-end" =
        .ok b2 ∧
      updatePRBodyWithJiraLink b2 (generateJiraLink urlJ ("T-1".toList)) "body-end" =
        .ok b2 ∧
      (("body-end" : String) = "body-end" ∨
        (findLink ("Hello".toList)).isSome = true ∨ "Hello".toList = [] → b2 = b1) :=
  claim_C1 ("Hello".toList) urlJ ("T-1".toList) "body-end" (by decide) (by decide)
    (by decide) (by decide) (Or.inr rfl)

/-- Counterexample to C1 as stated: a `body-start` insertion into
`"Hello"` is changed again by the second application (the blank line
after the link collapses), so `changed` is not false on the second call. -/
theorem claim_C1_counterexample :
    updatePRBodyWithJiraLink ("Hello".toList) linkT1 "body-start" =
      .ok (linkT1 ++ '\n' :: '\n' :: "Hello".toList) ∧
    handleJiraTicketFoundWrite (linkT1 ++ '\n' :: '\n' :: "Hello".toList) linkT1
      "body-start" = .ok (some (linkT1 ++ '\n' :: "Hello".toList)) ∧
    linkT1 ++ '\n' :: "Hello".toList ≠ linkT1 ++ '\n' :: '\n' :: "Hello".toList := by
  decide

/-! ### Claim C6 -/

theorem noTerm_append (a b : Str) : noTerm (a ++ b) = (noTerm a && noTerm b) := by
  rw [noTerm, noTerm, noTerm, List.all_append]

theorem noTerm_cons (c : Char) (a : Str) :
    noTerm (c :: a) = ((!isLineTerm c) && noTerm a) := by
  rw [noTerm, noTerm, List.all_cons]

theorem link_noTerm {u t : Str} (hu : noTerm u = true) (ht : isTicketStr t = true) :
    noTerm (generateJiraLink u t) = true := by
  unfold generateJiraLink
  simp only [noTerm_append, noTerm_cons, Bool.and_eq_true]
  exact ⟨⟨by decide, ticket_noTerm ht⟩, by decide, by decide,
    ⟨⟨hu, by decide⟩, ticket_noTerm ht⟩, by decide, by decide⟩

/--
Claim C6 (amended): for every ticket that fully matches the default
ticket pattern and every base URL **containing no line-terminator
characters**, the formatter output contains no line terminator and, run
back through the link-line pattern, matches as one full line (the
leftmost match starts at index 0 and spans the whole string).  (As
originally stated — for *every* base URL — the claim is false: the code
never validates that the base URL is newline-free, and a newline in it
embeds a newline in the link and breaks the full-line match.)
-/
theorem claim_C6 (baseUrl t : Str) (ht : isTicketStr t = true)
    (hu : noTerm baseUrl = true) :
    noTerm (generateJiraLink baseUrl t) = true ∧
    findLink (generateJiraLink baseUrl t) =
      some (0, (generateJiraLink baseUrl t).length, t.length) :=
  ⟨link_noTerm hu ht, findLink_link ht hu⟩

/-- Witness for C6 at the sample base URL and ticket `T-1`. -/
theorem claim_C6_witness :
    noTerm (generateJiraLink urlJ ("T-1".toList)) = true ∧
    findLink (generateJiraLink urlJ ("T-1".toList)) =
      some (0, (generateJiraLink urlJ ("T-1".toList)).length, ("T-1".toList).length) :=
  claim_C6 urlJ ("T-1".toList) (by decide) (by decide)

/-- Counterexample to C6 as stated: with the base URL `"a\nb"` the
formatter output embeds a newline and no longer matches the link-line
pattern as a full line. -/
theorem claim_C6_counterexample :
    noTerm (generateJiraLink ("a\nb".toList) ("T-1".toList)) = false ∧
    findLink (generateJiraLink ("a\nb".toList) ("T-1".toList)) = none := by decide

/-! ### Claim C4 -/

/--
Claim C4 (amended): when the link-line pattern matches in the body and the
text after the matched region contains no further link line, replacement
substitutes the formatter link exactly in place of the matched region —
the text before and after it is preserved verbatim — and the result
contains exactly one link line: the new link is found (at the same start
index, spanning exactly the link), and the text after it still contains
no match.  (As originally stated the claim is false in two ways: the
matched region can extend beyond the line itself — the pattern's `\s*$`
absorbs a following newline — and a body that already contains two link
lines keeps its second one, ending with two link lines, never reduced to
one.)
-/
theorem claim_C4 (body u t : Str) (mode : String) (i len tl : Nat)
    (ht : isTicketStr t = true) (hu : noTerm u = true) (hd : noDollar u = true)
    (hfind : findLink body = some (i, len, tl))
    (hrest : findLink (body.drop (i + len)) = none) :
    updatePRBodyWithJiraLink body (generateJiraLink u t) mode =
      .ok (body.take i ++ generateJiraLink u t ++ body.drop (i + len)) ∧
    findLink (body.take i ++ generateJiraLink u t ++ body.drop (i + len)) =
      some (i, (generateJiraLink u t).length, t.length) ∧
    findLink ((body.take i ++ generateJiraLink u t ++ body.drop (i + len)).drop
      (i + (generateJiraLink u t).length)) = none := by
  obtain ⟨h1, h2, _⟩ := replace_fixed_point mode ht hu hd hfind
  refine ⟨h1, h2, ?_⟩
  obtain ⟨P, R, hbody, hPlen, hlenR, hPcond, hPnone, hS0⟩ := findLink_some_split hfind
  have htake : body.take i = P := by
    rw [hbody, List.take_left' hPlen]
  have hdrop : body.drop (i + len) = R.drop len := by
    rw [hbody, ← hPlen, List.drop_append]
  have hshape : body.take i ++ generateJiraLink u t ++ body.drop (i + len) =
      (P ++ generateJiraLink u t) ++ R.drop len := by
    rw [htake, hdrop]
  rw [hshape]
  rw [List.drop_left' (by rw [List.length_append, hPlen])]
  rw [← hdrop]
  exact hrest

/-- Witness for C4: a body holding one old link line and ordinary text. -/
theorem claim_C4_witness :
    updatePRBodyWithJiraLink ("🔗 Linked to JIRA ticket: [A-1](u)\nX".toList)
      (generateJiraLink urlJ ("T-1".toList)) "body-end" =
      .ok (("🔗 Linked to JIRA ticket: [A-1](u)\nX".toList).take 0 ++
        generateJiraLink urlJ ("T-1".toList) ++
        ("🔗 Linked to JIRA ticket: [A-1](u)\nX".toList).drop (0 + 33)) ∧
    findLink (("🔗 Linked to JIRA ticket: [A-1](u)\nX".toList).take 0 ++
        generateJiraLink urlJ ("T-1".toList) ++
        ("🔗 Linked to JIRA ticket: [A-1](u)\nX".toList).drop (0 + 33)) =
      some (0, (generateJiraLink urlJ ("T-1".toList)).length, ("T-1".toList).length) ∧
    findLink ((("🔗 Linked to JIRA ticket: [A-1](u)\nX".toList).take 0 ++
        generateJiraLink urlJ ("T-1".toList) ++
        ("🔗 Linked to JIRA ticket: [A-1](u)\nX".toList).drop (0 + 33)).drop
      (0 + (generateJiraLink urlJ ("T-1".toList)).length)) = none :=
  claim_C4 ("🔗 Linked to JIRA ticket: [A-1](u)\nX".toList) urlJ ("T-1".toList)
    "body-end" 0 33 3 (by decide) (by decide) (by decide) (by decide) (by decide)

/-- Counterexample to C4 as stated: a body already containing two link
lines keeps the second after replacement — the result has two link
lines, not one. -/
theorem claim_C4_counterexample :
    updatePRBodyWithJiraLink
      ("🔗 Linked to JIRA ticket: [A-1](u)\n🔗 Linked to JIRA ticket: [B-2](v)".toList)
      linkT1 "body-end" =
      .ok (linkT1 ++ "\n🔗 Linked to JIRA ticket: [B-2](v)".toList) ∧
    (findLink ((linkT1 ++ "\n🔗 Linked to JIRA ticket: [B-2](v)".toList).drop
      (0 + linkT1.length))).isSome = true := by decide

/-! ### Claim C10 -/

/--
Claim C10 (amended): when the body contains two or more matching link
lines (and is trim-stable with the first match not at position 0, so that
the removal's trim is the identity), both operations act on the first
matched region only: replacement substitutes the new link for exactly
that region and removal deletes exactly that region; in both results the
text after the region is preserved verbatim, and the later matching link
line is still found there, at the same relative position.  (As originally
stated — "affect only the first matching line" — the claim is false: the
matched region can absorb the newline of a following blank line, and the
removal operation additionally trims the whole body.)
-/
theorem claim_C10 (body u t : Str) (mode : String) (i len tl j len2 tl2 : Nat)
    (ht : isTicketStr t = true) (hu : noTerm u = true) (hd : noDollar u = true)
    (htrim : trimStr body = body) (h0 : 0 < i)
    (hfind : findLink body = some (i, len, tl))
    (hlater : findLink (body.drop (i + len)) = some (j, len2, tl2)) :
    updatePRBodyWithJiraLink body (generateJiraLink u t) mode =
      .ok (body.take i ++ generateJiraLink u t ++ body.drop (i + len)) ∧
    findLink ((body.take i ++ generateJiraLink u t ++ body.drop (i + len)).drop
      (i + (generateJiraLink u t).length)) = some (j, len2, tl2) ∧
    removeExistingJiraLink body = body.take i ++ body.drop (i + len) ∧
    findLink ((body.take i ++ body.drop (i + len)).drop i) = some (j, len2, tl2) := by
  obtain ⟨h1, _, _⟩ := replace_fixed_point mode ht hu hd hfind
  obtain ⟨P, R, hbody, hPlen, hlenR, hPcond, hPnone, hS0⟩ := findLink_some_split hfind
  have hile : i ≤ body.length := by
    rw [hbody, List.length_append]
    omega
  have htakelen : (body.take i).length = i := by
    rw [List.length_take]
    exact min_eq_left hile
  have htake : body.take i = P := by
    rw [hbody, List.take_left' hPlen]
  have hdrop : body.drop (i + len) = R.drop len := by
    rw [hbody, ← hPlen, List.drop_append]
  have hbne : body ≠ [] := by
    intro h
    rw [h, findLink_nil] at hfind
    cases hfind
  have hSne : body.drop (i + len) ≠ [] := by
    intro h
    rw [h, findLink_nil] at hlater
    cases hlater
  refine ⟨h1, ?_, ?_, ?_⟩
  · have hshape : body.take i ++ generateJiraLink u t ++ body.drop (i + len) =
        (P ++ generateJiraLink u t) ++ R.drop len := by
      rw [htake, hdrop]
    rw [hshape, List.drop_left' (by rw [List.length_append, hPlen]), ← hdrop]
    exact hlater
  · unfold removeExistingJiraLink
    have hrepl : replaceLink body [] = body.take i ++ body.drop (i + len) := by
      rw [replaceLink_shape hfind (by rfl)]
      simp
    rw [hrepl]
    -- the trim is a no-op: first and last characters of the result come
    -- from the trim-stable body
    obtain ⟨c, bt, hbc, hc⟩ := trimStable_head htrim hbne
    obtain ⟨b2t, d, hbl, hd2⟩ := trimStable_last htrim hbne
    obtain ⟨i2, hi2⟩ : ∃ i2, i = i2 + 1 := ⟨i - 1, by omega⟩
    have htk2 : body.take i = c :: bt.take i2 := by
      rw [hbc, hi2, List.take_succ_cons]
    have hlast : (body.drop (i + len)).getLast? = some d := by
      have hsp : body = body.take (i + len) ++ body.drop (i + len) :=
        (List.take_append_drop _ _).symm
      have h1' : body.getLast? = some d := by
        rw [hbl, List.getLast?_concat]
      rw [hsp, List.getLast?_append_of_ne_nil _ hSne] at h1'
      exact h1'
    obtain ⟨S1, hS1⟩ : ∃ S1, body.drop (i + len) = S1 ++ [d] := by
      refine ⟨(body.drop (i + len)).dropLast, ?_⟩
      rw [List.getLast?_eq_getLast _ hSne] at hlast
      have hdd : (body.drop (i + len)).getLast hSne = d := by injection hlast
      rw [← hdd]
      exact (List.dropLast_append_getLast hSne).symm
    have hshape2 : body.take i ++ body.drop (i + len) =
        c :: ((bt.take i2 ++ S1) ++ [d]) := by
      rw [htk2, hS1]
      simp
    rw [hshape2, trimStr_cons_concat c _ d hc hd2, ← hshape2]
  · rw [List.drop_left' htakelen]
    exact hlater

/-- A body with text, then an old link line, then a second link line. -/
def bodyTwoLinks : Str :=
  "X\n🔗 Linked to JIRA ticket: [A-1](u)\n🔗 Linked to JIRA ticket: [B-2](v)".toList

/-- Witness for C10 at a body with two link lines. -/
theorem claim_C10_witness :
    updatePRBodyWithJiraLink bodyTwoLinks (generateJiraLink urlJ ("T-1".toList))
      "body-end" =
      .ok (bodyTwoLinks.take 2 ++ generateJiraLink urlJ ("T-1".toList) ++
        bodyTwoLinks.drop (2 + 33)) ∧
    findLink ((bodyTwoLinks.take 2 ++ generateJiraLink urlJ ("T-1".toList) ++
      bodyTwoLinks.drop (2 + 33)).drop
      (2 + (generateJiraLink urlJ ("T-1".toList)).length)) = some (1, 33, 3) ∧
    removeExistingJiraLink bodyTwoLinks = bodyTwoLinks.take 2 ++ bodyTwoLinks.drop (2 + 33) ∧
    findLink ((bodyTwoLinks.take 2 ++ bodyTwoLinks.drop (2 + 33)).drop 2) =
      some (1, 33, 3) :=
  claim_C10 bodyTwoLinks urlJ ("T-1".toList) "body-end" 2 33 3 1 33 3
    (by decide) (by decide) (by decide) (by decide) (by decide) (by decide) (by decide)

/-- Counterexample to C10 as stated: the first match absorbs the newline
of the following blank line, so replacement affects more than the
matching line itself. -/
theorem claim_C10_counterexample :
    updatePRBodyWithJiraLink
      ("🔗 Linked to JIRA ticket: [A-1](u)\n\nX\n🔗 Linked to JIRA ticket: [B-2](v)".toList)
      linkT1 "body-end" =
      .ok (linkT1 ++ "\nX\n🔗 Linked to JIRA ticket: [B-2](v)".toList) ∧
    linkT1 ++ "\nX\n🔗 Linked to JIRA ticket: [B-2](v)".toList ≠
      linkT1 ++ "\n\nX\n🔗 Linked to JIRA ticket: [B-2](v)".toList := by decide
